import Mathlib

/-!
# Verification of the Project-Bootstrap-Web-App orchestrator core

Shallow embedding, in Lean 4, of the orchestrator components of the
repository (`src/orchestrator/*.py`, `src/agents/registry.py`) together
with proofs about the embedded definitions.

Conventions used throughout:
* Python `str` is Lean `String`; Python lists are Lean `List`s.
* Python dicts keyed by strings are modelled either as total functions
  `String → Option _` (for dicts queried with `.get`/`in`) or as
  association lists built in insertion order (for dicts that are
  constructed incrementally and then iterated in insertion order,
  which is Python's guaranteed dict semantics).
* `asyncio` tasks settle deterministically in our model: the behaviour of
  an agent (returning a value, raising an exception, or exceeding the
  timeout) is an explicit datum, and `asyncio.gather(..., return_exceptions=True)`
  preserves task order, which the model mirrors with ordinary lists.
* Python machine floats in the domain detector are modelled with exact
  rational arithmetic (`ℚ`), with `round(x, 2)` modelled as
  round-half-to-even, Python's rounding mode.
-/

namespace Bootstrap

/-! ## Values that flow through the executors

A Python agent returns an arbitrary dict.  The executors only ever
construct dicts of the shape `{"status": ..., "error": ...}` themselves
and otherwise pass agent results through unchanged, so a result value is
either an opaque agent-produced value (tagged by a number so that
distinct results are distinguishable) or a status/error pair built by
the orchestrator. -/

inductive PResult where
  | agentResult (tag : ℕ)
  | failDict (status : String) (error : String)
deriving DecidableEq, Repr

/-- Behaviour of one agent invocation under `asyncio.wait_for`:
it either returns a value, raises an exception (with message), or
exceeds the deadline. -/
inductive Behavior where
  | returns (r : PResult)
  | raises (msg : String)
  | hangs
deriving DecidableEq, Repr

/-- Outcome of one task as observed by
`asyncio.gather(*tasks, return_exceptions=True)`: either a value or the
exception object (its message). -/
inductive TaskOutcome where
  | val (v : PResult)
  | exn (msg : String)
deriving DecidableEq, Repr

/-- Association-list lookup, modelling a Python dict read. -/
def lookupA {α : Type} (k : String) : List (String × α) → Option α
  | [] => none
  | (k', v) :: rest => if k = k' then some v else lookupA k rest

/-! ## `src/orchestrator/parallel_executor.py` -/

namespace ParallelExecutor

/-- `ParallelExecutor._execute_with_timeout` (parallel_executor.py:72-93).
`asyncio.wait_for(agent.execute(context), timeout)`:
a timeout is caught and materialised as a failed dict whose error message
is `f"Agent {agent_id} timed out after {self.timeout}s"`; an exception
raised by the agent propagates out of the task. -/
def executeWithTimeout (timeout : ℕ) (beh : Behavior) (agentId : String) : TaskOutcome :=
  match beh with
  | .returns r => .val r
  | .raises msg => .exn msg
  | .hangs =>
      .val (.failDict "failed"
        ("Agent " ++ agentId ++ " timed out after " ++ toString timeout ++ "s"))

/-- Return value of `execute_parallel`. -/
structure ExecResult where
  status : String
  agent_results : List (String × PResult)
  errors : Option (List String)
deriving DecidableEq, Repr

/-- `ParallelExecutor.execute_parallel` (parallel_executor.py:18-70).
`registry id = none` models `agent_registry.get_agent(agent_id)` being
falsy; `registry id = some beh` gives the resolved agent's behaviour.

The task list is built only from resolvable ids, but the aggregation
loop reads `agent_ids[i]` for the `i`-th gathered result, which the
`zip` reproduces exactly (gather preserves task order and
`len(results) ≤ len(agent_ids)`). -/
def executeParallel (registry : String → Option Behavior) (timeout : ℕ)
    (agentIds : List String) : ExecResult :=
  let tasks := agentIds.filterMap fun agentId =>
    (registry agentId).map fun beh => executeWithTimeout timeout beh agentId
  if tasks.isEmpty then
    { status := "completed", agent_results := [], errors := none }
  else
    let results := tasks
    let pairs := agentIds.zip results
    let agent_results := pairs.map fun p =>
      match p.2 with
      | .exn msg => (p.1, PResult.failDict "failed" msg)
      | .val v => (p.1, v)
    let errors := pairs.filterMap fun p =>
      match p.2 with
      | .exn msg => some (p.1 ++ ": " ++ msg)
      | .val _ => none
    { status := if errors.isEmpty then "completed" else "partial_failure"
      agent_results := agent_results
      errors := if errors.isEmpty then none else some errors }

/-- Registry used in the concrete counterexample for the overall-status
claim: the single agent `"a"` resolves and exceeds the timeout. -/
def timeoutRegistry : String → Option Behavior :=
  fun agentId => if agentId = "a" then some Behavior.hangs else none

/-- Registry used for the misaligned-aggregation failing input: `"a"`
does not resolve, `"b"` resolves and returns its own result. -/
def misalignRegistry : String → Option Behavior :=
  fun agentId =>
    if agentId = "b" then some (Behavior.returns (PResult.agentResult 7)) else none

end ParallelExecutor

/-! ## `src/orchestrator/phase_executor.py`, `_execute_sequential` -/

namespace PhaseExecutor

/-- An execution context is opaque to `_execute_sequential`: it is handed
unchanged to every agent.  An agent implementation is modelled as a
function of the context it receives, returning a result or raising. -/
def AgentFun (Ctx : Type) : Type := Ctx → Except String PResult

/-- Aggregated result of a sequential phase. -/
structure SeqResult where
  status : String
  agent_results : List (String × PResult)
deriving DecidableEq, Repr

/-- The `for agent_id in agents:` loop of `_execute_sequential`
(phase_executor.py:122-134).  Ids that do not resolve are skipped; an
exception raised by `agent.execute(context)` propagates (`Except.error`).
The same `context` value is passed to every agent. -/
def seqLoop {Ctx : Type} (getAgent : String → Option (AgentFun Ctx)) (ctx : Ctx) :
    List String → List (String × PResult) → Except String (List (String × PResult))
  | [], acc => .ok acc
  | agentId :: rest, acc =>
    match getAgent agentId with
    | none => seqLoop getAgent ctx rest acc
    | some f =>
      match f ctx with
      | .error e => .error e
      | .ok r => seqLoop getAgent ctx rest (acc ++ [(agentId, r)])

/-- `PhaseExecutor._execute_sequential` (phase_executor.py:122-134):
run the loop and wrap the collected results with status `"completed"`. -/
def executeSequential {Ctx : Type} (getAgent : String → Option (AgentFun Ctx)) (ctx : Ctx)
    (agents : List String) : Except String SeqResult :=
  (seqLoop getAgent ctx agents []).map fun rs => ⟨"completed", rs⟩

/-- Closed form of the results collected by a fully-successful run. -/
def seqResults {Ctx : Type} (getAgent : String → Option (AgentFun Ctx)) (ctx : Ctx)
    (agents : List String) : List (String × PResult) :=
  agents.filterMap fun agentId =>
    (getAgent agentId).bind fun f =>
      match f ctx with
      | .ok r => some (agentId, r)
      | .error _ => none

/-- Concrete agent table for the sequential counterexample: agent `"a"`
raises, agent `"b"` would succeed. -/
def seqCexAgents : String → Option (AgentFun Unit) :=
  fun agentId =>
    if agentId = "a" then some (fun _ => .error "boom")
    else if agentId = "b" then some (fun _ => .ok (.agentResult 1))
    else none

end PhaseExecutor

/-! ## `src/orchestrator/approval_manager.py` -/

namespace ApprovalManager

/-- One approval gate (the dict built in `create_gate`,
approval_manager.py:33-44).  `created_at` stands for the
`datetime.utcnow()` timestamp. -/
structure Gate where
  id : String
  project_id : String
  phase : String
  artifact : String
  status : String
  created_at : ℕ
deriving DecidableEq, Repr

/-- The manager's `self._pending_approvals` dict, iterated in insertion
order by `_find_pending_gate`; modelled as the list of gates in
insertion order. -/
abbrev State : Type := List Gate

/-- `ApprovalManager.create_gate` (approval_manager.py:21-61).  The gate
id is `f"{project_id}_{phase}_{timestamp}"`; the new gate is stored with
status `"pending"` unconditionally — there is no check for an existing
pending gate. -/
def createGate (st : State) (project phase artifact : String) (now : ℕ) :
    State × String :=
  let gateId := project ++ "_" ++ phase ++ "_" ++ toString now
  (st ++ [{ id := gateId, project_id := project, phase := phase,
            artifact := artifact, status := "pending", created_at := now }],
   gateId)

/-- `ApprovalManager._find_pending_gate` (approval_manager.py:112-117):
first stored gate of the project whose status is `"pending"`. -/
def findPendingGate (st : State) (project : String) : Option Gate :=
  st.find? fun g => g.project_id = project ∧ g.status = "pending"

/-- The pending gates a project holds. -/
def pendingGates (st : State) (project : String) : List Gate :=
  st.filter fun g => g.project_id = project ∧ g.status = "pending"

end ApprovalManager

/-! ## `src/agents/registry.py`, `AgentRegistry.get_agent` -/

namespace AgentRegistry

/-- Registry state: `_implementations` maps an agent id to a registered
implementation class (opaque); `_instances` is the cache of constructed
instances.  Object identity of a constructed instance is modelled by the
value of `nextInstance` at construction time, which increases with every
construction, so two distinct constructions are never the same
instance. -/
structure State where
  implementations : String → Option ℕ
  instances : List (String × ℕ)
  nextInstance : ℕ

/-- `AgentRegistry.get_agent` (registry.py:122-142): return the cached
instance when present; otherwise construct, cache and return a fresh
instance when an implementation is registered; otherwise `None`. -/
def getAgent (st : State) (agentId : String) : Option ℕ × State :=
  match lookupA agentId st.instances with
  | some inst => (some inst, st)
  | none =>
    match st.implementations agentId with
    | some _ =>
      (some st.nextInstance,
       { st with instances := st.instances ++ [(agentId, st.nextInstance)],
                 nextInstance := st.nextInstance + 1 })
    | none => (none, st)

/-- Run a sequence of `get_agent` calls, keeping only the final state. -/
def runCalls (st : State) : List String → State
  | [] => st
  | agentId :: rest => runCalls (getAgent st agentId).2 rest

/-- Concrete registry state used by the caching witness: one registered
implementation (for id `"w"`), empty cache. -/
def wState : State :=
  { implementations := fun agentId => if agentId = "w" then some 0 else none,
    instances := [], nextInstance := 0 }

end AgentRegistry

/-! ## `src/orchestrator/engine.py`

The engine's phase loop mutates one `ExecutionContext` in place and
passes it to `state_manager.save_state` at fixed points.  The model
returns the list of context snapshots in the order they are saved,
together with the final context.  `runPhase` abstracts
`phase_executor.execute_phase` (result value, or a raised exception);
`now` stands for the `datetime.utcnow()` read at completion. -/

namespace Engine

/-- The parts of `workflow.Phase` the engine's loop reads. -/
structure PhaseDef where
  name : String
  requires_approval : Bool
deriving DecidableEq, Repr

/-- The parts of `state_manager.ExecutionContext` the engine's loop
touches. -/
structure Ctx where
  current_phase : String
  completed_phases : List String
  status : String
  phase_results : List (String × String)
  completed_at : Option ℕ
  error : Option String
deriving DecidableEq, Repr

/-- `OrchestrationEngine._execute_workflow` (engine.py:133-201):
the `for phase in context.workflow.phases:` loop with its checkpoints.
Returns (saved snapshots in order, final context).  An exception from
`execute_phase` is caught by the surrounding handler, which records
`status = "failed"` and the error and re-raises (loop ends).  A phase
with `requires_approval` pauses the loop after the gate is created. -/
def execWorkflow (runPhase : String → Except String String) (now : ℕ) :
    List PhaseDef → Ctx → List Ctx × Ctx
  | [], ctx =>
    let final := { ctx with status := "completed", completed_at := some now }
    ([final], final)
  | phase :: rest, ctx =>
    if phase.name ∈ ctx.completed_phases then
      execWorkflow runPhase now rest ctx
    else
      let ctx1 := { ctx with current_phase := phase.name }
      match runPhase phase.name with
      | .error e =>
        let ctx2 := { ctx1 with status := "failed", error := some e }
        ([ctx1, ctx2], ctx2)
      | .ok r =>
        let ctx2 := { ctx1 with
          phase_results := ctx1.phase_results ++ [(phase.name, r)],
          completed_phases := ctx1.completed_phases ++ [phase.name] }
        if phase.requires_approval then
          let ctx3 := { ctx2 with status := "awaiting_approval" }
          ([ctx1, ctx2, ctx3], ctx3)
        else
          let res := execWorkflow runPhase now rest ctx2
          (ctx1 :: ctx2 :: res.1, res.2)

/-- The fresh `ExecutionContext` built by `start_workflow`
(engine.py:91-98, field defaults from state_manager.py:10-24). -/
def initialCtx : Ctx :=
  { current_phase := "", completed_phases := [], status := "running",
    phase_results := [], completed_at := none, error := none }

/-- `OrchestrationEngine.start_workflow` (engine.py:50-106): save the
initial context, then spawn the phase loop. -/
def startWorkflow (runPhase : String → Except String String) (now : ℕ)
    (phases : List PhaseDef) : List Ctx × Ctx :=
  let res := execWorkflow runPhase now phases initialCtx
  (initialCtx :: res.1, res.2)

/-- `OrchestrationEngine.resume_workflow` (engine.py:108-131) on a
successfully loaded context: the context is returned to the caller and
the phase loop is spawned on it (`asyncio.create_task`). -/
def resumeWorkflow (runPhase : String → Except String String) (now : ℕ)
    (phases : List PhaseDef) (ctx : Ctx) : Ctx × (List Ctx × Ctx) :=
  (ctx, execWorkflow runPhase now phases ctx)

/-- The (amended) checkpoint invariant: `current_phase` is outside
`completed_phases` except that, from the checkpoint right after a phase
completes until the next phase starts, it equals the most recently
completed phase. -/
def phaseInv (ctx : Ctx) : Prop :=
  ctx.current_phase ∉ ctx.completed_phases ∨
    ctx.completed_phases.getLast? = some ctx.current_phase

/-- Phase runner used by the concrete engine counterexamples: every
phase succeeds with result `"r"`. -/
def okRun : String → Except String String := fun _ => .ok "r"

/-- A stored completed context (one-phase workflow) used by the
resume-on-completed counterexample. -/
def doneCtx : Ctx :=
  { current_phase := "p", completed_phases := ["p"], status := "completed",
    phase_results := [("p", "r")], completed_at := some 5, error := none }

end Engine

/-! ## `src/orchestrator/domain_expert_detector.py` -/

namespace DomainExpertDetector

/-- The word-character class `\w` of Python's `re` module is a Unicode
property table — standard-library data, not code of this repository —
so the embedding passes the table as a parameter `wchar : Char → Bool`
and never inspects it.  Its restriction to the ASCII range, used by the
concrete witnesses (whose texts are ASCII), is letters, digits and
underscore: -/
def asciiWordChar (c : Char) : Bool := c.isAlphanum || c = '_'

/-- The keyword occurs verbatim at position `i` of the text. -/
def matchesAt (kw text : List Char) (i : ℕ) : Bool :=
  decide ((text.drop i).take kw.length = kw)

/-- `re.search(r'\b' + re.escape(keyword) + r'\b', text)` finds a match
starting at `i`: the keyword occurs at `i` and both ends sit on a word
boundary.  (Every keyword in the table starts and ends with a `\w`
character — a lower-case ASCII letter or digit — for which `\b` means
exactly: at the text edge or next to a non-word character.) -/
def wordOccurAt (wchar : Char → Bool) (kw text : List Char) (i : ℕ) : Bool :=
  matchesAt kw text i &&
  (decide (i = 0) || !(wchar (text.getD (i - 1) ' '))) &&
  (decide (i + kw.length = text.length) || !(wchar (text.getD (i + kw.length) ' ')))

/-- `re.search` succeeds somewhere in the text. -/
def wordOccurs (wchar : Char → Bool) (kw text : List Char) : Bool :=
  (List.range (text.length + 1)).any (wordOccurAt wchar kw text)

/-- Floor of a rational (`Int.fdiv` is floor division). -/
def ratFloor (q : ℚ) : ℤ := Int.fdiv q.num q.den

/-- Python's `round` on a value of magnitude below 2^52: nearest
integer, ties to even. -/
def roundHalfEven (q : ℚ) : ℤ :=
  let f := ratFloor q
  if q - f < 1/2 then f
  else if 1/2 < q - f then f + 1
  else if f % 2 = 0 then f else f + 1

/-- `round(x, 2)`. -/
def roundTo2 (q : ℚ) : ℚ := (roundHalfEven (q * 100) : ℚ) / 100

/-- `DomainExpertDetector._calculate_score`
(domain_expert_detector.py:129-149), with float arithmetic carried out
exactly in `ℚ`, over the word-character table `wchar`. -/
def calculateScore (wchar : Char → Bool) (text : List Char)
    (keywords : List (List Char)) : ℚ :=
  let numMatches := (keywords.filter fun kw => wordOccurs wchar kw text).length
  if keywords.isEmpty then 0
  else roundTo2 (min ((numMatches : ℚ) / ((keywords.length : ℚ) * (3 / 10))) 1)

/-- `DomainExpertDetector.KEYWORD_MAPPINGS`
(domain_expert_detector.py:15-93): the ten domains, in source order,
with their keyword lists.  (The `agent_id` field is not read by
`detect_domains` and is omitted.) -/
def KEYWORD_MAPPINGS : List (String × List String) :=
  [("healthcare",
    ["health", "medical", "patient", "clinical", "hospital",
     "diagnosis", "treatment", "hipaa", "ehr", "emr", "healthcare",
     "doctor", "nurse", "prescription", "pharmacy", "telemedicine"]),
   ("finance",
    ["bank", "banking", "payment", "transaction", "trading",
     "stock", "investment", "loan", "credit", "debit", "fintech",
     "pci", "sox", "financial", "money", "wallet", "ledger"]),
   ("ecommerce",
    ["shop", "shopping", "cart", "checkout", "product", "catalog",
     "order", "inventory", "ecommerce", "store", "merchant",
     "customer", "purchase", "retail"]),
   ("edtech",
    ["learning", "course", "student", "education", "school",
     "university", "lms", "training", "curriculum", "assessment",
     "grade", "classroom", "teacher", "ferpa"]),
   ("iot",
    ["sensor", "device", "embedded", "telemetry", "iot",
     "connected", "smart", "mqtt", "edge", "firmware",
     "gateway", "actuator"]),
   ("gaming",
    ["game", "gaming", "player", "multiplayer", "score",
     "level", "match", "leaderboard", "realtime", "lobby"]),
   ("social",
    ["social", "feed", "post", "community", "follow",
     "like", "share", "comment", "friend", "network",
     "timeline", "notification"]),
   ("legaltech",
    ["contract", "legal", "compliance", "document", "attorney",
     "law", "signature", "esign", "clause", "agreement", "regulation"]),
   ("logistics",
    ["shipping", "tracking", "warehouse", "delivery", "logistics",
     "supply chain", "fleet", "route", "carrier", "freight", "package"]),
   ("hrtech",
    ["employee", "hiring", "payroll", "hr", "recruitment",
     "onboarding", "benefits", "performance", "applicant",
     "workforce", "talent"])]

def CONFIDENCE_THRESHOLD : ℚ := 3 / 10

def MAX_EXPERTS : ℕ := 3

/-- `str.lower()` applies the Unicode case map — again library data —
so the embedding passes the lower-casing function as a parameter
`low : String → String` applied to the joined f-string.  Its
restriction to ASCII texts (per-character ASCII lower-casing) is: -/
def asciiLower (s : String) : String := ⟨s.data.map Char.toLower⟩

/-- `f"{project_overview} {key_features} {constraints}".lower()`. -/
def combinedText (low : String → String)
    (overview features constraints : String) : List Char :=
  (low (overview ++ " " ++ features ++ " " ++ constraints)).data

/-- Score of one domain's keyword list against a text. -/
def domainScore (wchar : Char → Bool) (text : List Char)
    (keywords : List String) : ℚ :=
  calculateScore wchar text (keywords.map String.data)

/-- Insert into a descending-sorted list, after any entry of greater or
equal score: this is where a stable sort puts a later element. -/
def insertDesc (x : String × ℚ) : List (String × ℚ) → List (String × ℚ)
  | [] => [x]
  | y :: ys => if y.2 < x.2 then x :: y :: ys else y :: insertDesc x ys

/-- `list.sort(key=lambda x: x[1], reverse=True)`: Python's sort is
stable, so it is extensionally the stable insertion sort on the score,
descending. -/
def sortDesc (l : List (String × ℚ)) : List (String × ℚ) :=
  l.foldl (fun acc x => insertDesc x acc) []

/-- `DomainExpertDetector.detect_domains`
(domain_expert_detector.py:98-127), over the library tables `wchar`
(`re`'s `\w`) and `low` (`str.lower`). -/
def detectDomains (wchar : Char → Bool) (low : String → String)
    (overview features constraints : String) : List (String × ℚ) :=
  let text := combinedText low overview features constraints
  let domain_scores := KEYWORD_MAPPINGS.filterMap fun dc =>
    let score := domainScore wchar text dc.2
    if CONFIDENCE_THRESHOLD ≤ score then some (dc.1, score) else none
  (sortDesc domain_scores).take MAX_EXPERTS

/-- The fixed domain order: position in `KEYWORD_MAPPINGS`. -/
def domainNames : List String := KEYWORD_MAPPINGS.map Prod.fst

def domainIdx (d : String) : ℕ := domainNames.indexOf d

/-- Keyword list of a named domain. -/
def domainKeywords (d : String) : List String :=
  ((KEYWORD_MAPPINGS.find? fun dc => dc.1 = d).map Prod.snd).getD []

/-- Strict ranking order on scored domains: higher score first, ties by
the fixed domain order. -/
def precedes (p q : String × ℚ) : Prop :=
  q.2 < p.2 ∨ (p.2 = q.2 ∧ domainIdx p.1 < domainIdx q.1)

/-- The scored candidate list before sorting and truncation. -/
def candidates (wchar : Char → Bool) (low : String → String)
    (overview features constraints : String) : List (String × ℚ) :=
  KEYWORD_MAPPINGS.filterMap fun dc =>
    let score := domainScore wchar (combinedText low overview features constraints) dc.2
    if CONFIDENCE_THRESHOLD ≤ score then some (dc.1, score) else none

end DomainExpertDetector

/-! ## `src/orchestrator/dependency_resolver.py` -/

namespace DependencyResolver

abbrev Agent := String

/-- The adjacency list `graph[u]` built by the first loop of `resolve`
(dependency_resolver.py:28-35): for each `agent` of `agents` (outer loop,
in order) and each `dep` of `dependencies.get(agent, [])` (inner loop),
if `dep in agents` then `agent` is appended to `graph[dep]`.  Hence
`graph[u]` lists, in agent order and with multiplicity, the agents that
declare `u` as a dependency (provided `u ∈ agents`). -/
def graphOf (agents : List Agent) (deps : Agent → List Agent) (u : Agent) : List Agent :=
  agents.flatMap fun v =>
    ((deps v).filter fun d => decide (d = u ∧ d ∈ agents)).map fun _ => v

/-- `in_degree[v]` after the first loop: one increment per occurrence of
an in-`agents` dependency of `v`, once per occurrence of `v` in the
outer loop. -/
def indeg0 (agents : List Agent) (deps : Agent → List Agent) (v : Agent) : ℕ :=
  agents.count v * ((deps v).filter fun d => decide (d ∈ agents)).length

/-- One `in_degree[dependent] -= 1` step (dependency_resolver.py:47-50):
decrement, and append to the queue when the counter reaches exactly 0. -/
def stepEdge (st : (Agent → ℤ) × List Agent) (v : Agent) : (Agent → ℤ) × List Agent :=
  let d := st.1 v - 1
  (fun w => if w = v then d else st.1 w, if d = 0 then st.2 ++ [v] else st.2)

/-- Draining one level of the queue (the `for _ in range(len(queue))`
loop, dependency_resolver.py:42-50): the whole current queue is the
batch; each popped agent walks its adjacency list, and the agents whose
counters reach 0 form the next queue, in discovery order. -/
def processBatch (graph : Agent → List Agent) (indeg : Agent → ℤ) (batch : List Agent) :
    (Agent → ℤ) × List Agent :=
  batch.foldl (fun st u => (graph u).foldl stepEdge st) (indeg, [])

/-- The `while queue:` loop (dependency_resolver.py:41-53).  `fuel` is a
bound on the number of iterations: every iteration drains a non-empty
queue, and an id enters the queue at most once as a zero-in-degree seed
plus at most once when its strictly decreasing counter reaches zero, so
`2 * len(agents) + 1` iterations are never exhausted. -/
def kahnLoop (graph : Agent → List Agent) : ℕ → (Agent → ℤ) → List Agent → List (List Agent)
  | 0, _, _ => []
  | fuel + 1, indeg, queue =>
    if queue.isEmpty then []
    else
      let st := processBatch graph indeg queue
      queue :: kahnLoop graph fuel st.1 st.2

/-- The batch list computed by the body of `resolve`
(dependency_resolver.py:37-53): the initial queue is the zero-in-degree
agents in input order, then the `while` loop drains level by level. -/
def kahnBatches (agents : List Agent) (deps : Agent → List Agent) : List (List Agent) :=
  kahnLoop (graphOf agents deps) (2 * agents.length + 1)
    (fun v => (indeg0 agents deps v : ℤ))
    (agents.filter fun a => decide (indeg0 agents deps a = 0))

/-- `DependencyResolver.resolve` (dependency_resolver.py:11-60): the
final length check (line 55-58) accepts the batches or raises
`ValueError("Circular dependency detected in agents")`, modelled as
`Except.error` with that message. -/
def resolve (agents : List Agent) (deps : Agent → List Agent) :
    Except String (List (List Agent)) :=
  if ((kahnBatches agents deps).map List.length).sum = agents.length
  then .ok (kahnBatches agents deps)
  else .error "Circular dependency detected in agents"

/-- `u` must run before `v`: `v` declares `u` as a dependency and both
ids belong to the agent set (the restriction of the dependency map to
`A`). -/
def EdgeIn (agents : List Agent) (deps : Agent → List Agent) (u v : Agent) : Prop :=
  u ∈ agents ∧ v ∈ agents ∧ u ∈ deps v

/-- Non-empty directed paths of a relation. -/
inductive EPath (E : Agent → Agent → Prop) : Agent → Agent → Prop
  | single {u v : Agent} : E u v → EPath E u v
  | cons {u v w : Agent} : E u v → EPath E v w → EPath E u w

/-- The dependency relation restricted to the agent set contains a
directed cycle. -/
def hasCycle (agents : List Agent) (deps : Agent → List Agent) : Prop :=
  ∃ v, EPath (EdgeIn agents deps) v v

/-- All in-set dependencies of `v` are already processed (and `v` is an
unprocessed member of the set): `v` is ready to run. -/
def ready (agents : List Agent) (deps : Agent → List Agent) (done : List Agent)
    (v : Agent) : Prop :=
  v ∈ agents ∧ v ∉ done ∧ ∀ u ∈ deps v, u ∈ agents → u ∈ done

/-- The in-degree of `v` once the ids in `done` have been processed:
the number of occurrences of in-set dependencies of `v` outside `done`. -/
def curIndeg (agents : List Agent) (deps : Agent → List Agent) (done : List Agent)
    (v : Agent) : ℤ :=
  (((deps v).filter fun d => decide (d ∈ agents ∧ d ∉ done)).length : ℤ)

/-- Invariant of the Kahn loop at a batch boundary, for duplicate-free
`agents`: `prev` are the emitted batches, `queue` the current queue and
`indeg` the in-degree table.  Writing `done` for `prev.flatten`:
the processed and queued ids are distinct members of the agent set, the
table agrees with `curIndeg done`, the queue holds exactly the ready
ids, and every emitted id's in-set dependencies lie in strictly earlier
batches. -/
structure LoopInv (agents : List Agent) (deps : Agent → List Agent)
    (prev : List (List Agent)) (queue : List Agent) (indeg : Agent → ℤ) : Prop where
  nodup : (prev.flatten ++ queue).Nodup
  sub : ∀ x ∈ prev.flatten ++ queue, x ∈ agents
  ideg : ∀ v ∈ agents, indeg v = curIndeg agents deps prev.flatten v
  que : ∀ v, v ∈ queue ↔ ready agents deps prev.flatten v
  order : ∀ i (hi : i < prev.length), ∀ v ∈ prev.get ⟨i, hi⟩, ∀ u ∈ deps v,
    u ∈ agents → u ∈ (prev.take i).flatten

/-- The spec's cycle scenario: `A = {a, b, c}`,
`deps = {a: [b], b: [c], c: [a]}`. -/
def cycDeps : Agent → List Agent := fun v =>
  if v = "a" then ["b"] else if v = "b" then ["c"] else if v = "c" then ["a"] else []

/-- Duplicate-id input for the cycle-iff counterexample:
`A = [a, b, b]`, `deps = {b: [a]}` (acyclic). -/
def dupAgents : List Agent := ["a", "b", "b"]

def dupDeps : Agent → List Agent := fun v => if v = "b" then ["a"] else []

/-- Input for the within-batch-order counterexample:
`A = [x, y, p, q]`, `deps = {p: [y], q: [x]}` (acyclic, no duplicates). -/
def ordAgents : List Agent := ["x", "y", "p", "q"]

def ordDeps : Agent → List Agent := fun v =>
  if v = "p" then ["y"] else if v = "q" then ["x"] else []

/-- Small acyclic input used by witnesses: `A = [a, b]`, `deps = {b: [a]}`. -/
def wAgents : List Agent := ["a", "b"]

def wDeps : Agent → List Agent := fun v => if v = "b" then ["a"] else []

end DependencyResolver

/-! # Theorems -/

/-! ## Generic association-list and list lemmas -/

theorem lookupA_append_some {α : Type} {k : String} {l : List (String × α)} {v : α}
    (h : lookupA k l = some v) (l' : List (String × α)) :
    lookupA k (l ++ l') = some v := by
  induction l with
  | nil => simp [lookupA] at h
  | cons p rest ih =>
    obtain ⟨k', v'⟩ := p
    by_cases hk : k = k'
    · rw [lookupA, if_pos hk] at h
      rw [List.cons_append, lookupA, if_pos hk]
      exact h
    · rw [lookupA, if_neg hk] at h
      rw [List.cons_append, lookupA, if_neg hk]
      exact ih h

theorem lookupA_append_none {α : Type} {k : String} {l : List (String × α)}
    (h : lookupA k l = none) (l' : List (String × α)) :
    lookupA k (l ++ l') = lookupA k l' := by
  induction l with
  | nil => simp
  | cons p rest ih =>
    obtain ⟨k', v'⟩ := p
    by_cases hk : k = k'
    · rw [lookupA, if_pos hk] at h
      exact absurd h (by simp)
    · rw [lookupA, if_neg hk] at h
      rw [List.cons_append, lookupA, if_neg hk]
      exact ih h

theorem lookupA_eq_none_iff {α : Type} {k : String} {l : List (String × α)} :
    lookupA k l = none ↔ k ∉ l.map Prod.fst := by
  induction l with
  | nil => simp [lookupA]
  | cons p rest ih =>
    rw [lookupA]
    by_cases h : k = p.1
    · simp [h]
    · simp [h, ih]

theorem lookupA_map_self {α : Type} (g : String → α) {l : List String} {a : String}
    (hnd : l.Nodup) (ha : a ∈ l) :
    lookupA a (l.map fun x => (x, g x)) = some (g a) := by
  induction l with
  | nil => simp at ha
  | cons x rest ih =>
    rw [List.map_cons, lookupA]
    rcases List.mem_cons.1 ha with h | h
    · simp [h]
    · have hx : a ≠ x := fun hax => (List.nodup_cons.1 hnd).1 (hax ▸ h)
      simp only [hx, if_neg, not_false_iff]
      exact ih (List.nodup_cons.1 hnd).2 h

theorem filterMap_eq_map_of_some {α β : Type} {f : α → Option β} {g : α → β} {l : List α}
    (h : ∀ a ∈ l, f a = some (g a)) : l.filterMap f = l.map g := by
  induction l with
  | nil => rfl
  | cons x rest ih =>
    rw [List.filterMap_cons, h x (List.mem_cons_self x rest), List.map_cons,
      ih fun a ha => h a (List.mem_cons_of_mem x ha)]

/-! ## C7 — `ApprovalManager.create_gate` -/

/-- Counterexample to C7: after a gate is created for project `"p"`, a
further `create_gate` call for `"p"` does not fail — it stores a second
gate, and afterwards the project holds two pending gates. -/
theorem createGate_second_pending_counterexample :
    (ApprovalManager.pendingGates
      ((ApprovalManager.createGate
        ((ApprovalManager.createGate [] "p" "ph1" "art1" 1).1) "p" "ph2" "art2" 2).1)
      "p").length = 2 := by decide

/-- C7 (amended): `create_gate` never fails; it unconditionally appends
a new gate with status `"pending"` (id `f"{project}_{phase}_{timestamp}"`)
and returns its id, so a call made while a pending gate exists leaves
the project with one more pending gate. -/
theorem createGate_always_creates (st : ApprovalManager.State)
    (project phase artifact : String) (now : ℕ) :
    (ApprovalManager.createGate st project phase artifact now).1
      = st ++ [{ id := project ++ "_" ++ phase ++ "_" ++ toString now,
                 project_id := project, phase := phase, artifact := artifact,
                 status := "pending", created_at := now }] ∧
    (ApprovalManager.createGate st project phase artifact now).2
      = project ++ "_" ++ phase ++ "_" ++ toString now ∧
    (ApprovalManager.pendingGates
        (ApprovalManager.createGate st project phase artifact now).1 project).length
      = (ApprovalManager.pendingGates st project).length + 1 := by
  refine ⟨rfl, rfl, ?_⟩
  simp [ApprovalManager.pendingGates, ApprovalManager.createGate, List.filter_append]

/-! ## C4 — `ParallelExecutor.execute_parallel` result alignment -/

/-- C4 failing input, evaluated: with `agent_ids = ["a", "b"]` where
`"a"` does not resolve and `"b"` resolves and returns its own result,
the aggregation loop stores `"b"`'s result under the key `"a"` (and
`"b"` is absent), because `results[i]` is paired with `agent_ids[i]`
although the task list only contains resolvable agents. -/
theorem executeParallel_misaligned_results :
    ParallelExecutor.executeParallel ParallelExecutor.misalignRegistry 300 ["a", "b"]
      = { status := "completed",
          agent_results := [("a", PResult.agentResult 7)],
          errors := none } := by decide

/-! ## C3 — `ParallelExecutor.execute_parallel` timeouts and status -/

/-- Counterexample to C3: a lone resolvable agent that times out yields
a `failed` slot, yet the overall status is `"completed"` (not
`"partial_failure"`): the timeout result is returned as an ordinary
value, so the `errors` list stays empty. -/
theorem executeParallel_timeout_status_counterexample :
    (ParallelExecutor.executeParallel ParallelExecutor.timeoutRegistry 300 ["a"]).status
        = "completed" ∧
    (ParallelExecutor.executeParallel ParallelExecutor.timeoutRegistry 300 ["a"]).agent_results
        = [("a", PResult.failDict "failed" "Agent a timed out after 300s")] := by
  exact ⟨rfl, rfl⟩

/-- Normal form of `execute_parallel` when every id resolves. -/
theorem executeParallel_resolved (registry : String → Option Behavior) (timeout : ℕ)
    (agentIds : List String) (hne : agentIds ≠ [])
    (hres : ∀ a ∈ agentIds, (registry a).isSome) :
    ParallelExecutor.executeParallel registry timeout agentIds =
      { status :=
          if (agentIds.filterMap fun a =>
              match registry a with
              | some (Behavior.raises m) => some (a ++ ": " ++ m)
              | _ => none).isEmpty
          then "completed" else "partial_failure",
        agent_results := agentIds.map fun a =>
          (a, match registry a with
              | some (Behavior.returns r) => r
              | some (Behavior.raises m) => PResult.failDict "failed" m
              | some Behavior.hangs =>
                  PResult.failDict "failed"
                    ("Agent " ++ a ++ " timed out after " ++ toString timeout ++ "s")
              | none => PResult.failDict "" ""),
        errors :=
          if (agentIds.filterMap fun a =>
              match registry a with
              | some (Behavior.raises m) => some (a ++ ": " ++ m)
              | _ => none).isEmpty
          then none
          else some (agentIds.filterMap fun a =>
              match registry a with
              | some (Behavior.raises m) => some (a ++ ": " ++ m)
              | _ => none) } := by
  have htask : ∀ a ∈ agentIds,
      ((registry a).map fun beh => ParallelExecutor.executeWithTimeout timeout beh a)
        = some (match registry a with
                | some beh => ParallelExecutor.executeWithTimeout timeout beh a
                | none => TaskOutcome.val (PResult.failDict "" "")) := by
    intro a ha
    rcases Option.isSome_iff_exists.1 (hres a ha) with ⟨beh, hbeh⟩
    rw [hbeh]
    rfl
  simp only [ParallelExecutor.executeParallel]
  rw [filterMap_eq_map_of_some htask]
  have hzip :
      agentIds.zip (agentIds.map fun a =>
        match registry a with
        | some beh => ParallelExecutor.executeWithTimeout timeout beh a
        | none => TaskOutcome.val (PResult.failDict "" ""))
      = agentIds.map fun a =>
          (a, match registry a with
              | some beh => ParallelExecutor.executeWithTimeout timeout beh a
              | none => TaskOutcome.val (PResult.failDict "" "")) := by
    have := List.zip_map' (fun a : String => a)
      (fun a =>
        match registry a with
        | some beh => ParallelExecutor.executeWithTimeout timeout beh a
        | none => TaskOutcome.val (PResult.failDict "" "")) agentIds
    simpa using this
  have hmapne : (agentIds.map fun a =>
      match registry a with
      | some beh => ParallelExecutor.executeWithTimeout timeout beh a
      | none => TaskOutcome.val (PResult.failDict "" "")).isEmpty = false := by
    cases agentIds with
    | nil => exact absurd rfl hne
    | cons x xs => rfl
  rw [hmapne]
  simp only [Bool.false_eq_true, if_false, hzip]
  have h1 : List.filterMap
      (fun p : String × TaskOutcome =>
        match p.2 with
        | TaskOutcome.exn msg => some (p.1 ++ ": " ++ msg)
        | TaskOutcome.val _ => none)
      (List.map (fun a =>
        (a, match registry a with
            | some beh => ParallelExecutor.executeWithTimeout timeout beh a
            | none => TaskOutcome.val (PResult.failDict "" ""))) agentIds)
      = agentIds.filterMap fun a =>
          match registry a with
          | some (Behavior.raises m) => some (a ++ ": " ++ m)
          | _ => none := by
    rw [List.filterMap_map]
    apply List.filterMap_congr
    intro a _
    rcases hreg : registry a with _ | beh
    · simp [Function.comp, hreg]
    · cases beh <;> simp [Function.comp, hreg, ParallelExecutor.executeWithTimeout]
  have h2 : List.map
      (fun p : String × TaskOutcome =>
        match p.2 with
        | TaskOutcome.exn msg => (p.1, PResult.failDict "failed" msg)
        | TaskOutcome.val v => (p.1, v))
      (List.map (fun a =>
        (a, match registry a with
            | some beh => ParallelExecutor.executeWithTimeout timeout beh a
            | none => TaskOutcome.val (PResult.failDict "" ""))) agentIds)
      = agentIds.map fun a =>
          (a, match registry a with
              | some (Behavior.returns r) => r
              | some (Behavior.raises m) => PResult.failDict "failed" m
              | some Behavior.hangs =>
                  PResult.failDict "failed"
                    ("Agent " ++ a ++ " timed out after " ++ toString timeout ++ "s")
              | none => PResult.failDict "" "") := by
    rw [List.map_map]
    apply List.map_congr_left
    intro a _
    rcases hreg : registry a with _ | beh
    · simp [Function.comp, hreg]
    · cases beh <;> simp [Function.comp, hreg, ParallelExecutor.executeWithTimeout]
  rw [h1, h2]

/-- C3 (amended): with every id resolvable, a timed-out agent's slot is
`failed` with an error containing `"timed out after"` and every other
agent's slot reflects its own outcome, but the overall status is
`"partial_failure"` exactly when some task raised an exception: a
timeout leaves the overall status `"completed"` because its dict is
returned as an ordinary value and contributes no entry to `errors`. -/
theorem executeParallel_timeout_spec (registry : String → Option Behavior) (timeout : ℕ)
    (agentIds : List String) (hnd : agentIds.Nodup) (hne : agentIds ≠ [])
    (hres : ∀ a ∈ agentIds, (registry a).isSome) :
    (∀ a ∈ agentIds, registry a = some Behavior.hangs →
      ∃ pre post,
        lookupA a (ParallelExecutor.executeParallel registry timeout agentIds).agent_results
          = some (PResult.failDict "failed" (pre ++ "timed out after" ++ post))) ∧
    (∀ a ∈ agentIds, ∀ r, registry a = some (Behavior.returns r) →
      lookupA a (ParallelExecutor.executeParallel registry timeout agentIds).agent_results
        = some r) ∧
    (∀ a ∈ agentIds, ∀ msg, registry a = some (Behavior.raises msg) →
      lookupA a (ParallelExecutor.executeParallel registry timeout agentIds).agent_results
        = some (PResult.failDict "failed" msg)) ∧
    ((ParallelExecutor.executeParallel registry timeout agentIds).status = "partial_failure"
      ↔ ∃ a ∈ agentIds, ∃ msg, registry a = some (Behavior.raises msg)) ∧
    ((ParallelExecutor.executeParallel registry timeout agentIds).status = "completed"
      ↔ ∀ a ∈ agentIds, ∀ msg, registry a ≠ some (Behavior.raises msg)) := by
  rw [executeParallel_resolved registry timeout agentIds hne hres]
  have hlook : ∀ a ∈ agentIds,
      lookupA a (agentIds.map fun a =>
        (a, match registry a with
            | some (Behavior.returns r) => r
            | some (Behavior.raises m) => PResult.failDict "failed" m
            | some Behavior.hangs =>
                PResult.failDict "failed"
                  ("Agent " ++ a ++ " timed out after " ++ toString timeout ++ "s")
            | none => PResult.failDict "" ""))
      = some (match registry a with
              | some (Behavior.returns r) => r
              | some (Behavior.raises m) => PResult.failDict "failed" m
              | some Behavior.hangs =>
                  PResult.failDict "failed"
                    ("Agent " ++ a ++ " timed out after " ++ toString timeout ++ "s")
              | none => PResult.failDict "" "") := fun a ha =>
    lookupA_map_self _ hnd ha
  have herrnil :
      ((agentIds.filterMap fun a =>
        match registry a with
        | some (Behavior.raises m) => some (a ++ ": " ++ m)
        | _ => none).isEmpty = true)
      ↔ ∀ a ∈ agentIds, ∀ msg, registry a ≠ some (Behavior.raises msg) := by
    rw [List.isEmpty_iff, List.filterMap_eq_nil_iff]
    constructor
    · intro h a ha msg hmsg
      have := h a ha
      rw [hmsg] at this
      exact Option.noConfusion this
    · intro h a ha
      rcases hreg : registry a with _ | beh
      · rfl
      · cases beh with
        | returns r => rfl
        | raises m => exact absurd hreg (h a ha m)
        | hangs => rfl
  refine ⟨?_, ?_, ?_, ?_, ?_⟩
  · intro a ha hreg
    refine ⟨"Agent " ++ a ++ " ", " " ++ toString timeout ++ "s", ?_⟩
    rw [hlook a ha, hreg]
    have hsplit : "Agent " ++ a ++ " timed out after " ++ toString timeout ++ "s"
        = ("Agent " ++ a ++ " ") ++ "timed out after" ++ (" " ++ toString timeout ++ "s") := by
      apply String.ext
      simp only [String.data_append, List.append_assoc]
      rfl
    rw [← hsplit]
  · intro a ha r hreg
    rw [hlook a ha, hreg]
  · intro a ha msg hreg
    rw [hlook a ha, hreg]
  · by_cases hr : ∀ a ∈ agentIds, ∀ msg, registry a ≠ some (Behavior.raises msg)
    · have hemp : (agentIds.filterMap fun a =>
          match registry a with
          | some (Behavior.raises m) => some (a ++ ": " ++ m)
          | _ => none).isEmpty = true := herrnil.2 hr
      simp only [hemp, if_true]
      constructor
      · intro h
        exact absurd h (by decide)
      · rintro ⟨a, ha, msg, hmsg⟩
        exact absurd hmsg (hr a ha msg)
    · have hemp : (agentIds.filterMap fun a =>
          match registry a with
          | some (Behavior.raises m) => some (a ++ ": " ++ m)
          | _ => none).isEmpty = false := by
        rcases hE : (agentIds.filterMap fun a =>
            match registry a with
            | some (Behavior.raises m) => some (a ++ ": " ++ m)
            | _ => none).isEmpty
        · rfl
        · exact absurd (herrnil.1 hE) hr
      simp only [hemp, Bool.false_eq_true, if_false]
      push_neg at hr
      obtain ⟨a, ha, msg, hmsg⟩ := hr
      exact ⟨fun _ => ⟨a, ha, msg, hmsg⟩, fun _ => trivial⟩
  · by_cases hr : ∀ a ∈ agentIds, ∀ msg, registry a ≠ some (Behavior.raises msg)
    · have hemp : (agentIds.filterMap fun a =>
          match registry a with
          | some (Behavior.raises m) => some (a ++ ": " ++ m)
          | _ => none).isEmpty = true := herrnil.2 hr
      simp only [hemp, if_true]
      exact ⟨fun _ => hr, fun _ => trivial⟩
    · have hemp : (agentIds.filterMap fun a =>
          match registry a with
          | some (Behavior.raises m) => some (a ++ ": " ++ m)
          | _ => none).isEmpty = false := by
        rcases hE : (agentIds.filterMap fun a =>
            match registry a with
            | some (Behavior.raises m) => some (a ++ ": " ++ m)
            | _ => none).isEmpty
        · rfl
        · exact absurd (herrnil.1 hE) hr
      simp only [hemp, Bool.false_eq_true, if_false]
      constructor
      · intro h
        exact absurd h (by decide)
      · intro h
        exact absurd h hr

/-- Witness for `executeParallel_timeout_spec` at a concrete input: one
resolvable hanging agent; its slot is failed while the overall status is
not `"partial_failure"`. -/
theorem executeParallel_timeout_spec_witness :
    (∀ a ∈ (["a"] : List String), (ParallelExecutor.timeoutRegistry a).isSome) ∧
    ((ParallelExecutor.executeParallel ParallelExecutor.timeoutRegistry 300 ["a"]).status
        = "partial_failure"
      ↔ ∃ a ∈ (["a"] : List String), ∃ msg,
          ParallelExecutor.timeoutRegistry a = some (Behavior.raises msg)) :=
  ⟨by decide,
   (executeParallel_timeout_spec ParallelExecutor.timeoutRegistry 300 ["a"]
      (by decide) (by decide) (by decide)).2.2.2.1⟩

/-! ## C5 — `PhaseExecutor._execute_sequential` -/

theorem seqLoop_ok {Ctx : Type} (getAgent : String → Option (PhaseExecutor.AgentFun Ctx))
    (ctx : Ctx) (agents : List String)
    (h : ∀ agentId ∈ agents, ∀ f, getAgent agentId = some f → ∃ r, f ctx = Except.ok r) :
    ∀ acc, PhaseExecutor.seqLoop getAgent ctx agents acc
      = Except.ok (acc ++ PhaseExecutor.seqResults getAgent ctx agents) := by
  induction agents with
  | nil => intro acc; simp [PhaseExecutor.seqLoop, PhaseExecutor.seqResults]
  | cons agentId rest ih =>
    intro acc
    rcases hga : getAgent agentId with _ | f
    · simp only [PhaseExecutor.seqLoop, hga]
      rw [ih (fun a ha => h a (List.mem_cons_of_mem _ ha)) acc]
      simp [PhaseExecutor.seqResults, List.filterMap_cons, hga]
    · rcases h agentId (List.mem_cons_self _ _) f hga with ⟨r, hr⟩
      simp only [PhaseExecutor.seqLoop, hga, hr]
      rw [ih (fun a ha => h a (List.mem_cons_of_mem _ ha)) (acc ++ [(agentId, r)])]
      simp [PhaseExecutor.seqResults, List.filterMap_cons, hga, hr]

theorem seqLoop_error {Ctx : Type} (getAgent : String → Option (PhaseExecutor.AgentFun Ctx))
    (ctx : Ctx) (pre : List String) (bad : String) (post : List String)
    (f : PhaseExecutor.AgentFun Ctx) (e : String)
    (hpre : ∀ agentId ∈ pre, ∀ g, getAgent agentId = some g → ∃ r, g ctx = Except.ok r)
    (hbad : getAgent bad = some f) (hfe : f ctx = Except.error e) :
    ∀ acc, PhaseExecutor.seqLoop getAgent ctx (pre ++ bad :: post) acc = Except.error e := by
  induction pre with
  | nil =>
    intro acc
    simp only [List.nil_append, PhaseExecutor.seqLoop, hbad, hfe]
  | cons p rest ih =>
    intro acc
    rcases hga : getAgent p with _ | g
    · simp only [List.cons_append, PhaseExecutor.seqLoop, hga]
      exact ih (fun a ha => hpre a (List.mem_cons_of_mem _ ha)) acc
    · rcases hpre p (List.mem_cons_self _ _) g hga with ⟨r, hr⟩
      simp only [List.cons_append, PhaseExecutor.seqLoop, hga, hr]
      exact ih (fun a ha => hpre a (List.mem_cons_of_mem _ ha)) _

/-- Counterexample to C5: in a sequential phase whose first agent raises,
the exception propagates out of `_execute_sequential` — execution does
not continue with the remaining agents and no `"partial_failure"` phase
result is produced. -/
theorem executeSequential_failure_counterexample :
    PhaseExecutor.executeSequential PhaseExecutor.seqCexAgents () ["a", "b"]
        = Except.error "boom" ∧
    ¬ ∃ res : PhaseExecutor.SeqResult,
        PhaseExecutor.executeSequential PhaseExecutor.seqCexAgents () ["a", "b"]
          = Except.ok res ∧ res.status = "partial_failure" := by
  have h : PhaseExecutor.executeSequential PhaseExecutor.seqCexAgents () ["a", "b"]
      = Except.error "boom" := rfl
  refine ⟨h, ?_⟩
  rintro ⟨res, hres, -⟩
  rw [h] at hres
  exact Except.noConfusion hres

/-- C5 (amended): `_execute_sequential` invokes the agents one at a time
directly through the registry, passing every agent the same unmodified
context (prior outputs are not injected into a `dependencies` field);
unresolvable ids are skipped; when every resolved agent returns, the
phase result has status `"completed"` with each agent's own result, and
when some agent raises, the exception propagates and aborts the phase
instead of marking it `"partial_failure"`. -/
theorem executeSequential_spec {Ctx : Type}
    (getAgent : String → Option (PhaseExecutor.AgentFun Ctx)) (ctx : Ctx)
    (agents : List String) :
    ((∀ agentId ∈ agents, ∀ f, getAgent agentId = some f → ∃ r, f ctx = Except.ok r) →
      PhaseExecutor.executeSequential getAgent ctx agents
        = Except.ok ⟨"completed", PhaseExecutor.seqResults getAgent ctx agents⟩) ∧
    (∀ pre bad post f e, agents = pre ++ bad :: post →
      (∀ agentId ∈ pre, ∀ g, getAgent agentId = some g → ∃ r, g ctx = Except.ok r) →
      getAgent bad = some f → f ctx = Except.error e →
      PhaseExecutor.executeSequential getAgent ctx agents = Except.error e) := by
  constructor
  · intro h
    unfold PhaseExecutor.executeSequential
    rw [seqLoop_ok getAgent ctx agents h []]
    rfl
  · intro pre bad post f e hsplit hpre hbad hfe
    unfold PhaseExecutor.executeSequential
    rw [hsplit, seqLoop_error getAgent ctx pre bad post f e hpre hbad hfe []]
    rfl

/-- Witness for `executeSequential_spec`: the error half applied at the
concrete counterexample input. -/
theorem executeSequential_spec_witness :
    PhaseExecutor.seqCexAgents "a" = some (fun _ => Except.error "boom") ∧
    PhaseExecutor.executeSequential PhaseExecutor.seqCexAgents () ["b", "a"]
      = Except.error "boom" :=
  ⟨rfl,
   (executeSequential_spec PhaseExecutor.seqCexAgents () ["b", "a"]).2
     ["b"] "a" [] (fun _ => Except.error "boom") "boom" rfl
     (by
       intro agentId ha g hg
       have hb : agentId = "b" := by simpa using ha
       subst hb
       refine ⟨PResult.agentResult 1, ?_⟩
       have : g = fun _ => Except.ok (PResult.agentResult 1) := by
         simpa [PhaseExecutor.seqCexAgents] using hg.symm
       rw [this])
     rfl rfl⟩

/-! ## C10 — `AgentRegistry.get_agent` caching -/

theorem getAgent_cache_persists {st : AgentRegistry.State} {agentId : String} {v : ℕ}
    (h : lookupA agentId st.instances = some v) (calls : List String) :
    lookupA agentId (AgentRegistry.runCalls st calls).instances = some v := by
  induction calls generalizing st with
  | nil => exact h
  | cons a rest ih =>
    show lookupA agentId (AgentRegistry.runCalls (AgentRegistry.getAgent st a).2 rest).instances
      = some v
    rcases hl : lookupA a st.instances with _ | inst
    · rcases himpl : st.implementations a with _ | impl
      · have hst : (AgentRegistry.getAgent st a).2 = st := by
          simp [AgentRegistry.getAgent, hl, himpl]
        rw [hst]
        exact ih h
      · have hst : (AgentRegistry.getAgent st a).2
            = { st with instances := st.instances ++ [(a, st.nextInstance)],
                        nextInstance := st.nextInstance + 1 } := by
          simp [AgentRegistry.getAgent, hl, himpl]
        rw [hst]
        exact ih (lookupA_append_some h _)
    · have hst : (AgentRegistry.getAgent st a).2 = st := by
        simp [AgentRegistry.getAgent, hl]
      rw [hst]
      exact ih h

theorem runCalls_nodup_keys {st : AgentRegistry.State}
    (h : (st.instances.map Prod.fst).Nodup) (calls : List String) :
    ((AgentRegistry.runCalls st calls).instances.map Prod.fst).Nodup := by
  induction calls generalizing st with
  | nil => exact h
  | cons a rest ih =>
    show ((AgentRegistry.runCalls (AgentRegistry.getAgent st a).2 rest).instances.map
      Prod.fst).Nodup
    rcases hl : lookupA a st.instances with _ | inst
    · rcases himpl : st.implementations a with _ | impl
      · have hst : (AgentRegistry.getAgent st a).2 = st := by
          simp [AgentRegistry.getAgent, hl, himpl]
        rw [hst]
        exact ih h
      · have hst : (AgentRegistry.getAgent st a).2
            = { st with instances := st.instances ++ [(a, st.nextInstance)],
                        nextInstance := st.nextInstance + 1 } := by
          simp [AgentRegistry.getAgent, hl, himpl]
        rw [hst]
        apply ih
        have hnot : a ∉ st.instances.map Prod.fst := lookupA_eq_none_iff.1 hl
        simp [List.nodup_append, h, hnot]
    · have hst : (AgentRegistry.getAgent st a).2 = st := by
        simp [AgentRegistry.getAgent, hl]
      rw [hst]
      exact ih h

/-- C10: `get_agent` returns `None` when the id has neither a cached
instance nor an implementation; when an implementation is registered,
the first call yields an instance and, after any further sequence of
`get_agent` calls, calling again for the same id returns the identical
instance without modifying the registry (so the instance is constructed
at most once, and one object is shared by all callers); the cache never
acquires a duplicate key. -/
theorem getAgent_cached_spec (st : AgentRegistry.State) (agentId : String)
    (calls : List String) :
    (lookupA agentId st.instances = none → st.implementations agentId = none →
      AgentRegistry.getAgent st agentId = (none, st)) ∧
    ((st.implementations agentId).isSome →
      ∃ v, (AgentRegistry.getAgent st agentId).1 = some v ∧
        AgentRegistry.getAgent
            (AgentRegistry.runCalls (AgentRegistry.getAgent st agentId).2 calls) agentId
          = (some v,
             AgentRegistry.runCalls (AgentRegistry.getAgent st agentId).2 calls)) ∧
    ((st.instances.map Prod.fst).Nodup →
      ((AgentRegistry.runCalls st calls).instances.map Prod.fst).Nodup) := by
  refine ⟨?_, ?_, fun h => runCalls_nodup_keys h calls⟩
  · intro h1 h2
    simp [AgentRegistry.getAgent, h1, h2]
  · intro himpl
    rcases hl : lookupA agentId st.instances with _ | inst
    · rcases himpl' : st.implementations agentId with _ | impl
      · rw [himpl'] at himpl
        exact Bool.noConfusion himpl
      · have hget : AgentRegistry.getAgent st agentId
            = (some st.nextInstance,
               { st with instances := st.instances ++ [(agentId, st.nextInstance)],
                         nextInstance := st.nextInstance + 1 }) := by
          simp [AgentRegistry.getAgent, hl, himpl']
        refine ⟨st.nextInstance, by rw [hget], ?_⟩
        rw [hget]
        have hcache : lookupA agentId
            ({ st with instances := st.instances ++ [(agentId, st.nextInstance)],
                       nextInstance := st.nextInstance + 1 } :
              AgentRegistry.State).instances = some st.nextInstance := by
          show lookupA agentId (st.instances ++ [(agentId, st.nextInstance)])
            = some st.nextInstance
          rw [lookupA_append_none hl]
          simp [lookupA]
        have hpers := getAgent_cache_persists hcache calls
        simp [AgentRegistry.getAgent, hpers]
    · have hget : AgentRegistry.getAgent st agentId = (some inst, st) := by
        simp [AgentRegistry.getAgent, hl]
      refine ⟨inst, by rw [hget], ?_⟩
      rw [hget]
      have hpers := getAgent_cache_persists hl calls
      simp [AgentRegistry.getAgent, hpers]

/-! ## C9 — `DomainExpertDetector.detect_domains` -/

namespace DomainExpertDetector

theorem insertDesc_perm (x : String × ℚ) (l : List (String × ℚ)) :
    List.Perm (insertDesc x l) (x :: l) := by
  induction l with
  | nil => rfl
  | cons y ys ih =>
    rw [insertDesc]
    by_cases hlt : y.2 < x.2
    · rw [if_pos hlt]
    · rw [if_neg hlt]
      exact (ih.cons y).trans (List.Perm.swap x y ys)

theorem insertDesc_pairwise {x : String × ℚ} {acc : List (String × ℚ)}
    (hacc : acc.Pairwise precedes)
    (hidx : ∀ y ∈ acc, domainIdx y.1 < domainIdx x.1) :
    (insertDesc x acc).Pairwise precedes := by
  induction acc with
  | nil => simp [insertDesc]
  | cons y ys ih =>
    obtain ⟨hy, hys⟩ := List.pairwise_cons.1 hacc
    rw [insertDesc]
    by_cases hlt : y.2 < x.2
    · rw [if_pos hlt]
      refine List.pairwise_cons.2 ⟨?_, hacc⟩
      intro z hz
      rcases List.mem_cons.1 hz with hz | hz
      · subst hz
        exact Or.inl hlt
      · rcases hy z hz with h | ⟨heq, _⟩
        · exact Or.inl (lt_trans h hlt)
        · exact Or.inl (heq ▸ hlt)
    · rw [if_neg hlt]
      refine List.pairwise_cons.2 ⟨?_, ih hys fun z hz => hidx z (List.mem_cons_of_mem _ hz)⟩
      intro z hz
      rcases List.mem_cons.1 ((insertDesc_perm x ys).mem_iff.1 hz) with hz1 | hz1
      · subst hz1
        rcases lt_or_eq_of_le (not_lt.1 hlt) with h | h
        · exact Or.inl h
        · exact Or.inr ⟨h.symm, hidx y (List.mem_cons_self _ _)⟩
      · exact hy z hz1

theorem sortDesc_aux (l acc : List (String × ℚ))
    (hl : l.Pairwise fun p q => domainIdx p.1 < domainIdx q.1)
    (hacc : acc.Pairwise precedes)
    (hsep : ∀ y ∈ acc, ∀ x ∈ l, domainIdx y.1 < domainIdx x.1) :
    List.Perm (l.foldl (fun acc x => insertDesc x acc) acc) (acc ++ l) ∧
    (l.foldl (fun acc x => insertDesc x acc) acc).Pairwise precedes := by
  induction l generalizing acc with
  | nil => exact ⟨by simp, hacc⟩
  | cons x rest ih =>
    obtain ⟨hx, hrest⟩ := List.pairwise_cons.1 hl
    have hacc' : (insertDesc x acc).Pairwise precedes :=
      insertDesc_pairwise hacc fun y hy => hsep y hy x (List.mem_cons_self _ _)
    have hsep' : ∀ y ∈ insertDesc x acc, ∀ z ∈ rest, domainIdx y.1 < domainIdx z.1 := by
      intro y hy z hz
      rcases List.mem_cons.1 ((insertDesc_perm x acc).mem_iff.1 hy) with hy1 | hy1
      · subst hy1
        exact hx z hz
      · exact hsep y hy1 z (List.mem_cons_of_mem _ hz)
    obtain ⟨hperm, hpw⟩ := ih (insertDesc x acc) hrest hacc' hsep'
    refine ⟨?_, hpw⟩
    refine hperm.trans ?_
    refine ((insertDesc_perm x acc).append_right rest).trans ?_
    exact List.perm_middle.symm

theorem sortDesc_spec {l : List (String × ℚ)}
    (hl : l.Pairwise fun p q => domainIdx p.1 < domainIdx q.1) :
    List.Perm (sortDesc l) l ∧ (sortDesc l).Pairwise precedes := by
  have := sortDesc_aux l [] hl List.Pairwise.nil (by simp)
  simpa [sortDesc] using this

/-- The ten domains appear in `KEYWORD_MAPPINGS` in strictly increasing
fixed-order position. -/
theorem keywordMappings_idx_sorted :
    KEYWORD_MAPPINGS.Pairwise fun m1 m2 => domainIdx m1.1 < domainIdx m2.1 := by
  decide

/-- `domainKeywords` recovers each table entry's keyword list. -/
theorem domainKeywords_eq : ∀ dc ∈ KEYWORD_MAPPINGS, domainKeywords dc.1 = dc.2 := by
  decide

theorem candidates_mem (wchar : Char → Bool) (low : String → String)
    (overview features constraints : String) :
    ∀ p ∈ candidates wchar low overview features constraints,
      p.1 ∈ domainNames ∧
      p.2 = domainScore wchar (combinedText low overview features constraints)
              (domainKeywords p.1) ∧
      CONFIDENCE_THRESHOLD ≤ p.2 := by
  intro p hp
  simp only [candidates] at hp
  obtain ⟨dc, hdc, hf⟩ := List.mem_filterMap.1 hp
  by_cases hth : CONFIDENCE_THRESHOLD
      ≤ domainScore wchar (combinedText low overview features constraints) dc.2
  · rw [if_pos hth] at hf
    obtain rfl : (dc.1,
        domainScore wchar (combinedText low overview features constraints) dc.2) = p :=
      Option.some_injective _ hf
    refine ⟨List.mem_map_of_mem Prod.fst hdc, ?_, hth⟩
    rw [domainKeywords_eq dc hdc]
  · rw [if_neg hth] at hf
    exact Option.noConfusion hf

theorem candidates_idx_sorted (wchar : Char → Bool) (low : String → String)
    (overview features constraints : String) :
    (candidates wchar low overview features constraints).Pairwise
      fun p q => domainIdx p.1 < domainIdx q.1 := by
  simp only [candidates, List.pairwise_filterMap]
  refine List.Pairwise.imp_of_mem ?_ keywordMappings_idx_sorted
  intro dc1 dc2 _ _ h b hb b' hb'
  have h1 : b.1 = dc1.1 := by
    by_cases hth : CONFIDENCE_THRESHOLD
        ≤ domainScore wchar (combinedText low overview features constraints) dc1.2
    · rw [if_pos hth, Option.mem_some_iff] at hb
      rw [← hb]
    · rw [if_neg hth] at hb
      simp at hb
  have h2 : b'.1 = dc2.1 := by
    by_cases hth : CONFIDENCE_THRESHOLD
        ≤ domainScore wchar (combinedText low overview features constraints) dc2.2
    · rw [if_pos hth, Option.mem_some_iff] at hb'
      rw [← hb']
    · rw [if_neg hth] at hb'
      simp at hb'
  rw [h1, h2]
  exact h

/-- C9: for every word-character table `wchar` (`re`'s Unicode `\w`)
and lower-casing map `low` (Unicode `str.lower`) — library data the
program defers to — and all three input strings, `detect_domains`
concatenates and lower-cases the inputs, scores each of the ten domains
by word-boundary keyword matching with `min(M / (n·0.3), 1)` rounded to
two decimals (the definitions `wordOccurs`, `calculateScore`), keeps
exactly the domains whose score reaches 0.30 (a kept domain is dropped
only when three better-ranked ones exist), and returns them sorted by
descending score with ties broken by the fixed domain order, truncated
to at most 3. -/
theorem detectDomains_spec (wchar : Char → Bool) (low : String → String)
    (overview features constraints : String) :
    (detectDomains wchar low overview features constraints).length
        = min MAX_EXPERTS (candidates wchar low overview features constraints).length ∧
    (∀ p ∈ detectDomains wchar low overview features constraints,
      p.1 ∈ domainNames ∧
      p.2 = domainScore wchar (combinedText low overview features constraints)
              (domainKeywords p.1) ∧
      CONFIDENCE_THRESHOLD ≤ p.2) ∧
    (detectDomains wchar low overview features constraints).Pairwise precedes ∧
    (∀ d ∈ domainNames,
      CONFIDENCE_THRESHOLD ≤ domainScore wchar
          (combinedText low overview features constraints) (domainKeywords d) →
      d ∉ (detectDomains wchar low overview features constraints).map Prod.fst →
      (detectDomains wchar low overview features constraints).length = MAX_EXPERTS ∧
      ∀ p ∈ detectDomains wchar low overview features constraints,
        precedes p
          (d, domainScore wchar (combinedText low overview features constraints)
                (domainKeywords d))) := by
  obtain ⟨hperm, hpw⟩ :=
    sortDesc_spec (candidates_idx_sorted wchar low overview features constraints)
  have hout : detectDomains wchar low overview features constraints
      = (sortDesc (candidates wchar low overview features constraints)).take
          MAX_EXPERTS := rfl
  have houtsub : ∀ p ∈ detectDomains wchar low overview features constraints,
      p ∈ candidates wchar low overview features constraints := by
    intro p hp
    rw [hout] at hp
    exact hperm.mem_iff.1 ((List.take_sublist _ _).subset hp)
  refine ⟨?_, ?_, ?_, ?_⟩
  · rw [hout, List.length_take, hperm.length_eq]
  · intro p hp
    exact candidates_mem wchar low overview features constraints p (houtsub p hp)
  · rw [hout]
    exact List.Pairwise.sublist (List.take_sublist _ _) hpw
  · intro d hd hth hnot
    have hdc : ∃ dc ∈ KEYWORD_MAPPINGS, dc.1 = d := by
      obtain ⟨dc, hdc, hfst⟩ := List.mem_map.1 hd
      exact ⟨dc, hdc, hfst⟩
    obtain ⟨dc, hdcmem, rfl⟩ := hdc
    have hkw : domainKeywords dc.1 = dc.2 := domainKeywords_eq dc hdcmem
    have hcand : (dc.1, domainScore wchar (combinedText low overview features constraints)
        (domainKeywords dc.1)) ∈ candidates wchar low overview features constraints := by
      simp only [candidates]
      refine List.mem_filterMap.2 ⟨dc, hdcmem, ?_⟩
      rw [hkw] at hth ⊢
      rw [if_pos hth]
    have hsorted : (dc.1, domainScore wchar (combinedText low overview features constraints)
        (domainKeywords dc.1))
        ∈ sortDesc (candidates wchar low overview features constraints) :=
      hperm.mem_iff.2 hcand
    have hnottake : (dc.1, domainScore wchar (combinedText low overview features constraints)
        (domainKeywords dc.1)) ∉ detectDomains wchar low overview features constraints := by
      intro hmem
      exact hnot (List.mem_map_of_mem Prod.fst hmem)
    have hdrop : (dc.1, domainScore wchar (combinedText low overview features constraints)
        (domainKeywords dc.1))
        ∈ (sortDesc (candidates wchar low overview features constraints)).drop
            MAX_EXPERTS := by
      rcases (List.mem_append.1 (by
        rw [List.take_append_drop MAX_EXPERTS
          (sortDesc (candidates wchar low overview features constraints))]
        exact hsorted :
          (dc.1, domainScore wchar (combinedText low overview features constraints)
            (domainKeywords dc.1))
          ∈ (sortDesc (candidates wchar low overview features constraints)).take
              MAX_EXPERTS ++
            (sortDesc (candidates wchar low overview features constraints)).drop
              MAX_EXPERTS))
        with h | h
      · exact absurd (hout ▸ h) hnottake
      · exact h
    have hlen : MAX_EXPERTS
        < (sortDesc (candidates wchar low overview features constraints)).length := by
      by_contra hle
      push_neg at hle
      rw [List.drop_eq_nil_iff.2 hle] at hdrop
      simp at hdrop
    constructor
    · rw [hout, List.length_take]
      rw [hperm.length_eq] at hlen ⊢
      omega
    · intro p hp
      have hsplit := List.take_append_drop MAX_EXPERTS
        (sortDesc (candidates wchar low overview features constraints))
      have hpw2 : ((sortDesc (candidates wchar low overview features constraints)).take
            MAX_EXPERTS ++
          (sortDesc (candidates wchar low overview features constraints)).drop
            MAX_EXPERTS).Pairwise
            precedes := by
        rw [hsplit]
        exact hpw
      exact (List.pairwise_append.1 hpw2).2.2 p (hout ▸ hp) _ hdrop

/-- Witness for `detectDomains_spec` at a concrete input, instantiating
the library tables with their ASCII restrictions (the input is ASCII,
where Python's `\w` is `[A-Za-z0-9_]` and `str.lower` lower-cases per
character): the text `"game"` activates exactly the gaming domain with
score `round(min(1 / (10·0.3), 1), 2) = 0.33`. -/
theorem detectDomains_spec_witness :
    detectDomains asciiWordChar asciiLower "game" "" "" = [("gaming", 33 / 100)] ∧
    ("gaming" ∈ domainNames ∧
      ("gaming", (33 : ℚ) / 100).2
          = domainScore asciiWordChar (combinedText asciiLower "game" "" "")
              (domainKeywords "gaming") ∧
      CONFIDENCE_THRESHOLD ≤ (("gaming", (33 : ℚ) / 100)).2) :=
  ⟨by with_unfolding_all decide,
   (detectDomains_spec asciiWordChar asciiLower "game" "" "").2.1 ("gaming", 33 / 100)
     (by with_unfolding_all decide)⟩

end DomainExpertDetector

/-! ## C6 — engine checkpoint invariant on `current_phase` -/

/-- Counterexample to C6: already in a one-phase workflow, the
checkpoint taken right after the phase completes (engine.py:159) has
`current_phase = "p"` while `completed_phases = ["p"]`. -/
theorem engine_current_phase_counterexample :
    ∃ c ∈ (Engine.startWorkflow Engine.okRun 0 [⟨"p", false⟩]).1,
      c.current_phase ∈ c.completed_phases :=
  ⟨{ current_phase := "p", completed_phases := ["p"], status := "running",
     phase_results := [("p", "r")], completed_at := none, error := none },
   by decide, by decide⟩

/-- C6 (amended): at every state saved by `start_workflow` and the phase
loop (hence also by `resume_workflow`, which re-runs the loop on a
stored state), `current_phase` is not in `completed_phases` except that,
from the checkpoint taken right after a phase completes until the next
phase starts, `current_phase` equals the most recently completed phase
(the last entry of `completed_phases`). -/
theorem engine_current_phase_invariant (runPhase : String → Except String String)
    (now : ℕ) (phases : List Engine.PhaseDef) (ctx : Engine.Ctx)
    (h : Engine.phaseInv ctx) :
    (∀ c ∈ (Engine.execWorkflow runPhase now phases ctx).1, Engine.phaseInv c) ∧
    Engine.phaseInv (Engine.execWorkflow runPhase now phases ctx).2 ∧
    (∀ c ∈ (Engine.startWorkflow runPhase now phases).1, Engine.phaseInv c) := by
  have main : ∀ (ps : List Engine.PhaseDef) (c : Engine.Ctx), Engine.phaseInv c →
      (∀ x ∈ (Engine.execWorkflow runPhase now ps c).1, Engine.phaseInv x) ∧
      Engine.phaseInv (Engine.execWorkflow runPhase now ps c).2 := by
    intro ps
    induction ps with
    | nil =>
      intro c hc
      constructor
      · intro x hx
        rcases List.mem_cons.1 hx with hx | hx
        · subst hx
          exact hc
        · simp at hx
      · exact hc
    | cons phase rest ih =>
      intro c hc
      by_cases hmem : phase.name ∈ c.completed_phases
      · have hskip : Engine.execWorkflow runPhase now (phase :: rest) c
            = Engine.execWorkflow runPhase now rest c := by
          simp [Engine.execWorkflow, hmem]
        rw [hskip]
        exact ih c hc
      · have h1 : Engine.phaseInv { c with current_phase := phase.name } :=
          Or.inl hmem
        rcases hrun : runPhase phase.name with e | r
        · have herr : Engine.execWorkflow runPhase now (phase :: rest) c
              = ([{ c with current_phase := phase.name },
                  { c with current_phase := phase.name, status := "failed",
                           error := some e }],
                 { c with current_phase := phase.name, status := "failed",
                          error := some e }) := by
            simp [Engine.execWorkflow, hmem, hrun]
          rw [herr]
          have h2 : Engine.phaseInv
              { c with current_phase := phase.name, status := "failed",
                       error := some e } := Or.inl hmem
          refine ⟨?_, h2⟩
          intro x hx
          rcases List.mem_cons.1 hx with hx | hx
          · subst hx
            exact h1
          · rcases List.mem_cons.1 hx with hx | hx
            · subst hx
              exact h2
            · simp at hx
        · have h2 : Engine.phaseInv
              { c with current_phase := phase.name,
                       phase_results := c.phase_results ++ [(phase.name, r)],
                       completed_phases := c.completed_phases ++ [phase.name] } :=
            Or.inr (List.getLast?_concat _)
          by_cases happ : phase.requires_approval
          · have hgate : Engine.execWorkflow runPhase now (phase :: rest) c
                = ([{ c with current_phase := phase.name },
                    { c with current_phase := phase.name,
                             phase_results := c.phase_results ++ [(phase.name, r)],
                             completed_phases := c.completed_phases ++ [phase.name] },
                    { c with current_phase := phase.name,
                             phase_results := c.phase_results ++ [(phase.name, r)],
                             completed_phases := c.completed_phases ++ [phase.name],
                             status := "awaiting_approval" }],
                   { c with current_phase := phase.name,
                            phase_results := c.phase_results ++ [(phase.name, r)],
                            completed_phases := c.completed_phases ++ [phase.name],
                            status := "awaiting_approval" }) := by
              simp [Engine.execWorkflow, hmem, hrun, happ]
            rw [hgate]
            have h3 : Engine.phaseInv
                { c with current_phase := phase.name,
                         phase_results := c.phase_results ++ [(phase.name, r)],
                         completed_phases := c.completed_phases ++ [phase.name],
                         status := "awaiting_approval" } :=
              Or.inr (List.getLast?_concat _)
            refine ⟨?_, h3⟩
            intro x hx
            rcases List.mem_cons.1 hx with hx | hx
            · subst hx
              exact h1
            · rcases List.mem_cons.1 hx with hx | hx
              · subst hx
                exact h2
              · rcases List.mem_cons.1 hx with hx | hx
                · subst hx
                  exact h3
                · simp at hx
          · have hcont : Engine.execWorkflow runPhase now (phase :: rest) c
                = ({ c with current_phase := phase.name } ::
                   { c with current_phase := phase.name,
                            phase_results := c.phase_results ++ [(phase.name, r)],
                            completed_phases := c.completed_phases ++ [phase.name] } ::
                   (Engine.execWorkflow runPhase now rest
                     { c with current_phase := phase.name,
                              phase_results := c.phase_results ++ [(phase.name, r)],
                              completed_phases := c.completed_phases ++ [phase.name] }).1,
                   (Engine.execWorkflow runPhase now rest
                     { c with current_phase := phase.name,
                              phase_results := c.phase_results ++ [(phase.name, r)],
                              completed_phases := c.completed_phases ++ [phase.name] }).2) := by
              simp [Engine.execWorkflow, hmem, hrun, happ]
            rw [hcont]
            obtain ⟨ihall, ihfin⟩ := ih _ h2
            refine ⟨?_, ihfin⟩
            intro x hx
            rcases List.mem_cons.1 hx with hx | hx
            · subst hx
              exact h1
            · rcases List.mem_cons.1 hx with hx | hx
              · subst hx
                exact h2
              · exact ihall x hx
  obtain ⟨ha, hb⟩ := main phases ctx h
  refine ⟨ha, hb, ?_⟩
  intro c hc
  have hinit : Engine.phaseInv Engine.initialCtx := Or.inl (by simp [Engine.initialCtx])
  rcases List.mem_cons.1 hc with hc | hc
  · subst hc
    exact hinit
  · exact (main phases Engine.initialCtx hinit).1 c hc

/-- Witness for `engine_current_phase_invariant`: the one-phase workflow
of the counterexample; every saved state satisfies the amended
invariant. -/
theorem engine_current_phase_invariant_witness :
    Engine.phaseInv Engine.initialCtx ∧
    ∀ c ∈ (Engine.execWorkflow Engine.okRun 0 [⟨"p", false⟩] Engine.initialCtx).1,
      Engine.phaseInv c :=
  ⟨Or.inl (by decide),
   (engine_current_phase_invariant Engine.okRun 0 [⟨"p", false⟩] Engine.initialCtx
     (Or.inl (by decide))).1⟩

/-! ## C8 — `resume_workflow` on a completed project -/

/-- Counterexample to C8: resuming a completed project is not a no-op —
the spawned phase loop saves the context again and overwrites
`completed_at` (stored `some 5`, rewritten to the resume time `some 9`). -/
theorem resume_completed_counterexample :
    (Engine.execWorkflow Engine.okRun 9 [⟨"p", false⟩] Engine.doneCtx).2.completed_at
        = some 9 ∧
    Engine.doneCtx.completed_at = some 5 ∧
    (Engine.execWorkflow Engine.okRun 9 [⟨"p", false⟩] Engine.doneCtx).1 ≠ [] ∧
    (Engine.execWorkflow Engine.okRun 9 [⟨"p", false⟩] Engine.doneCtx).2
        ≠ Engine.doneCtx := by
  refine ⟨by decide, by decide, by decide, by decide⟩

/-- C8 (amended): `resume_workflow` on a stored context whose phases are
all completed returns that context, and the spawned phase loop runs no
phase at all (its outcome does not depend on the phase runner, and
status, `phase_results` and `completed_phases` are unchanged), but it
does save the context once more, overwriting `completed_at` with the
current time. -/
theorem resume_completed_spec (runPhase runPhase' : String → Except String String)
    (now : ℕ) (phases : List Engine.PhaseDef) (ctx : Engine.Ctx)
    (hdone : ctx.status = "completed")
    (hall : ∀ ph ∈ phases, ph.name ∈ ctx.completed_phases) :
    (Engine.resumeWorkflow runPhase now phases ctx).1 = ctx ∧
    Engine.execWorkflow runPhase now phases ctx
      = Engine.execWorkflow runPhase' now phases ctx ∧
    (Engine.execWorkflow runPhase now phases ctx).1
      = [{ ctx with status := "completed", completed_at := some now }] ∧
    (Engine.execWorkflow runPhase now phases ctx).2.status = ctx.status ∧
    (Engine.execWorkflow runPhase now phases ctx).2.phase_results = ctx.phase_results ∧
    (Engine.execWorkflow runPhase now phases ctx).2.completed_phases
      = ctx.completed_phases ∧
    (Engine.execWorkflow runPhase now phases ctx).2.completed_at = some now := by
  have hskipall : ∀ (rp : String → Except String String),
      Engine.execWorkflow rp now phases ctx
        = ([{ ctx with status := "completed", completed_at := some now }],
           { ctx with status := "completed", completed_at := some now }) := by
    intro rp
    induction phases with
    | nil => rfl
    | cons phase rest ih =>
      have hmem : phase.name ∈ ctx.completed_phases :=
        hall phase (List.mem_cons_self _ _)
      have := ih (fun ph hph => hall ph (List.mem_cons_of_mem _ hph))
      simpa [Engine.execWorkflow, hmem] using this
  refine ⟨rfl, ?_, ?_, ?_, ?_, ?_, ?_⟩
  · rw [hskipall runPhase, hskipall runPhase']
  · rw [hskipall runPhase]
  · rw [hskipall runPhase, hdone]
  · rw [hskipall runPhase]
  · rw [hskipall runPhase]
  · rw [hskipall runPhase]

/-- Witness for `resume_completed_spec` at the stored completed context
of the counterexample. -/
theorem resume_completed_spec_witness :
    Engine.doneCtx.status = "completed" ∧
    (Engine.execWorkflow Engine.okRun 9 [⟨"p", false⟩] Engine.doneCtx).1
      = [{ Engine.doneCtx with status := "completed", completed_at := some 9 }] :=
  ⟨rfl,
   (resume_completed_spec Engine.okRun Engine.okRun 9 [⟨"p", false⟩] Engine.doneCtx rfl
     (by decide)).2.2.1⟩

/-- Witness for `getAgent_cached_spec`: a registry with one registered
implementation for `"w"`, exercised by two further calls. -/
theorem getAgent_cached_spec_witness :
    ((AgentRegistry.wState.implementations "w").isSome = true) ∧
    (∃ v, (AgentRegistry.getAgent AgentRegistry.wState "w").1 = some v ∧
      AgentRegistry.getAgent
          (AgentRegistry.runCalls (AgentRegistry.getAgent AgentRegistry.wState "w").2
            ["w", "x"]) "w"
        = (some v,
           AgentRegistry.runCalls (AgentRegistry.getAgent AgentRegistry.wState "w").2
             ["w", "x"])) :=
  ⟨rfl, (getAgent_cached_spec AgentRegistry.wState "w" ["w", "x"]).2.1 rfl⟩

/-! ## C1 and C2 — `DependencyResolver.resolve` -/

namespace DependencyResolver

/-- Splitting a filter length over two pointwise-disjoint predicates. -/
theorem length_filter_or_disjoint {α : Type} (L : List α) (p q : α → Bool)
    (hdis : ∀ x, ¬(p x = true ∧ q x = true)) :
    (L.filter fun x => p x || q x).length = (L.filter p).length + (L.filter q).length := by
  induction L with
  | nil => rfl
  | cons a L ih =>
    rcases hp : p a with _ | _
    · rcases hq : q a with _ | _
      · simp only [List.filter_cons, hp, hq]
        simpa using ih
      · simp only [List.filter_cons, hp, hq]
        simp only [Bool.false_or]
        simp [ih]
        omega
    · have hq : q a = false := by
        rcases hqq : q a with _ | _
        · rfl
        · exact absurd ⟨hp, hqq⟩ (hdis a)
      simp only [List.filter_cons, hp, hq]
      simp [ih]
      omega

/-- Effect of folding `stepEdge` over an edge list on the in-degree
table: each id is decremented once per occurrence. -/
theorem edgeFold_fst (L : List Agent) (st : (Agent → ℤ) × List Agent) (v : Agent) :
    (L.foldl stepEdge st).1 v = st.1 v - L.count v := by
  induction L generalizing st with
  | nil => simp
  | cons e L ih =>
    rw [List.foldl_cons, ih]
    by_cases hve : v = e
    · subst hve
      simp only [stepEdge, if_pos rfl, List.count_cons, beq_self_eq_true, if_true]
      push_cast
      omega
    · have he : (e == v) = false := beq_eq_false_iff_ne.2 fun h => hve h.symm
      simp only [stepEdge, if_neg hve, List.count_cons, he, Bool.false_eq_true, if_false]
      push_cast
      omega

/-- Effect of folding `stepEdge` on the accumulated queue: `v` is
appended exactly when its counter passes through 0, i.e. when its
starting value lies in `[1, count]`. -/
theorem edgeFold_mem (L : List Agent) (st : (Agent → ℤ) × List Agent) (v : Agent) :
    v ∈ (L.foldl stepEdge st).2 ↔
      v ∈ st.2 ∨ (1 ≤ st.1 v ∧ st.1 v ≤ (L.count v : ℤ)) := by
  induction L generalizing st with
  | nil =>
    simp only [List.foldl_nil, List.count_nil, Nat.cast_zero]
    constructor
    · exact Or.inl
    · rintro (h | ⟨h1, h2⟩)
      · exact h
      · omega
  | cons e L ih =>
    rw [List.foldl_cons, ih]
    by_cases hve : v = e
    · subst hve
      have hc : ((v :: L).count v : ℤ) = (L.count v : ℤ) + 1 := by
        simp [List.count_cons]
      have h1app : (stepEdge st v).1 v = st.1 v - 1 := by
        simp [stepEdge]
      rw [hc, h1app]
      by_cases h1 : st.1 v - 1 = 0
      · have h2mem : (stepEdge st v).2 = st.2 ++ [v] := by
          simp [stepEdge, h1]
        rw [h2mem]
        have hcnt : (0 : ℤ) ≤ (L.count v : ℤ) := Int.natCast_nonneg _
        constructor
        · rintro (h | ⟨ha, hb⟩)
          · rcases List.mem_append.1 h with h | h
            · exact Or.inl h
            · right
              constructor <;> omega
          · right
            constructor <;> omega
        · rintro (h | ⟨ha, hb⟩)
          · exact Or.inl (List.mem_append.2 (Or.inl h))
          · by_cases hv1 : st.1 v = 1
            · exact Or.inl (List.mem_append.2 (Or.inr (List.mem_singleton.2 rfl)))
            · right
              constructor <;> omega
      · have h2mem : (stepEdge st v).2 = st.2 := by
          simp [stepEdge, h1]
        rw [h2mem]
        constructor
        · rintro (h | ⟨ha, hb⟩)
          · exact Or.inl h
          · right
            constructor <;> omega
        · rintro (h | ⟨ha, hb⟩)
          · exact Or.inl h
          · right
            constructor <;> omega
    · have he : (e == v) = false := beq_eq_false_iff_ne.2 fun h => hve h.symm
      have hc : ((e :: L).count v : ℤ) = (L.count v : ℤ) := by
        simp [List.count_cons, he]
      have h1app : (stepEdge st e).1 v = st.1 v := by
        simp [stepEdge, hve]
      rw [hc, h1app]
      by_cases h1 : st.1 e - 1 = 0
      · have h2mem : (stepEdge st e).2 = st.2 ++ [e] := by
          simp [stepEdge, h1]
        rw [h2mem]
        constructor
        · rintro (h | hh)
          · rcases List.mem_append.1 h with h | h
            · exact Or.inl h
            · exact absurd (List.mem_singleton.1 h) hve
          · exact Or.inr hh
        · rintro (h | hh)
          · exact Or.inl (List.mem_append.2 (Or.inl h))
          · exact Or.inr hh
      · have h2mem : (stepEdge st e).2 = st.2 := by
          simp [stepEdge, h1]
        rw [h2mem]

/-- Folding `stepEdge` keeps the queue duplicate-free: only ids whose
counter just became 0 are appended, and a queued id's counter can never
return to 0. -/
theorem edgeFold_nodup (L : List Agent) (st : (Agent → ℤ) × List Agent)
    (hnd : st.2.Nodup) (hneg : ∀ x ∈ st.2, st.1 x ≤ 0) :
    (L.foldl stepEdge st).2.Nodup ∧
      ∀ x ∈ (L.foldl stepEdge st).2, (L.foldl stepEdge st).1 x ≤ 0 := by
  induction L generalizing st with
  | nil => exact ⟨hnd, hneg⟩
  | cons e L ih =>
    rw [List.foldl_cons]
    apply ih
    · show (if st.1 e - 1 = 0 then st.2 ++ [e] else st.2).Nodup
      by_cases h1 : st.1 e - 1 = 0
      · rw [if_pos h1]
        have hninst : e ∉ st.2 := fun hmem => by
          have := hneg e hmem
          omega
        simp [List.nodup_append, hnd, hninst]
      · rw [if_neg h1]
        exact hnd
    · intro x hx
      show (if x = e then st.1 e - 1 else st.1 x) ≤ 0
      by_cases h1 : st.1 e - 1 = 0
      · rw [show (stepEdge st e).2 = st.2 ++ [e] from by simp [stepEdge, h1]] at hx
        rcases List.mem_append.1 hx with hx | hx
        · by_cases hxe : x = e
          · subst hxe
            simp only [if_pos rfl]
            exact le_of_eq h1
          · simp only [if_neg hxe]
            exact hneg x hx
        · rw [List.mem_singleton.1 hx]
          simp only [if_pos rfl]
          exact le_of_eq h1
      · rw [show (stepEdge st e).2 = st.2 from by simp [stepEdge, h1]] at hx
        by_cases hxe : x = e
        · subst hxe
          simp only [if_pos rfl]
          have := hneg x hx
          omega
        · simp only [if_neg hxe]
          exact hneg x hx

/-- Every entry of an adjacency list is a member of the agent set. -/
theorem mem_graphOf {agents : List Agent} {deps : Agent → List Agent} {u x : Agent}
    (hx : x ∈ graphOf agents deps u) : x ∈ agents := by
  obtain ⟨w, hw, hxw⟩ := List.mem_flatMap.1 hx
  obtain ⟨d, _, hdx⟩ := List.mem_map.1 hxw
  exact hdx ▸ hw

theorem count_map_const (L : List Agent) (w v : Agent) :
    ((L.map fun _ => w).count v) = if w = v then L.length else 0 := by
  rw [List.map_const', List.count_replicate]
  by_cases h : w = v
  · simp [h]
  · have hb : (w == v) = false := beq_eq_false_iff_ne.2 h
    simp [h, hb]

theorem count_flatMap_filterMap (deps : Agent → List Agent) (p : Agent → Bool)
    (v : Agent) (l : List Agent) :
    ((l.flatMap fun w => ((deps w).filter p).map fun _ => w).count v)
      = l.count v * ((deps v).filter p).length := by
  induction l with
  | nil => simp
  | cons w l ih =>
    rw [List.flatMap_cons, List.count_append, ih, count_map_const, List.count_cons]
    by_cases h : w = v
    · subst h
      simp [Nat.succ_mul, Nat.add_comm]
    · have hb : (w == v) = false := beq_eq_false_iff_ne.2 h
      simp [h, hb]

/-- Count of `v` in one adjacency list. -/
theorem count_graphOf (agents : List Agent) (deps : Agent → List Agent) (u v : Agent) :
    (graphOf agents deps u).count v
      = agents.count v * ((deps v).filter fun d => decide (d = u ∧ d ∈ agents)).length :=
  count_flatMap_filterMap deps _ v agents

/-- Count of `v` among all edges leaving a duplicate-free batch of
agents: the number of dependencies of `v` inside the batch. -/
theorem count_batch_edges {agents : List Agent} {deps : Agent → List Agent}
    (hnd : agents.Nodup) {batch : List Agent} (hbnd : batch.Nodup)
    (hbsub : ∀ x ∈ batch, x ∈ agents) {v : Agent} (hv : v ∈ agents) :
    ((batch.flatMap (graphOf agents deps)).count v)
      = ((deps v).filter fun d => decide (d ∈ batch)).length := by
  induction batch with
  | nil =>
    simp [List.count_eq_zero]
  | cons u rest ih =>
    have hu : u ∈ agents := hbsub u (List.mem_cons_self _ _)
    have hur : u ∉ rest := (List.nodup_cons.1 hbnd).1
    rw [List.flatMap_cons, List.count_append, count_graphOf,
      List.count_eq_one_of_mem hnd hv, one_mul,
      ih (List.nodup_cons.1 hbnd).2 fun x hx => hbsub x (List.mem_cons_of_mem _ hx)]
    have h1 : ((deps v).filter fun d => decide (d = u ∧ d ∈ agents))
        = (deps v).filter fun d => decide (d = u) := by
      apply List.filter_congr
      intro d _
      rw [decide_eq_decide]
      constructor
      · exact fun h => h.1
      · intro h
        exact ⟨h, h ▸ hu⟩
    have h2 : ((deps v).filter fun d => decide (d ∈ u :: rest))
        = (deps v).filter fun d => decide (d = u) || decide (d ∈ rest) := by
      apply List.filter_congr
      intro d _
      rw [show (decide (d ∈ u :: rest)) = decide (d = u ∨ d ∈ rest) from
        decide_eq_decide.2 List.mem_cons]
      exact Bool.decide_or _ _
    rw [h1, h2, length_filter_or_disjoint]
    intro d ⟨hdu, hdr⟩
    rw [decide_eq_true_eq] at hdu hdr
    exact hur (hdu ▸ hdr)

/-- `v` outside the agent set never occurs among the edges. -/
theorem count_batch_edges_zero {agents : List Agent} {deps : Agent → List Agent}
    {batch : List Agent} {v : Agent} (hv : v ∉ agents) :
    ((batch.flatMap (graphOf agents deps)).count v) = 0 := by
  rw [List.count_eq_zero]
  intro hmem
  obtain ⟨u, _, hvu⟩ := List.mem_flatMap.1 hmem
  exact hv (mem_graphOf hvu)

/-- The nested loops of `processBatch` are the fold over the
concatenated adjacency lists. -/
theorem processBatch_eq (graph : Agent → List Agent) (indeg : Agent → ℤ)
    (batch : List Agent) :
    processBatch graph indeg batch = (batch.flatMap graph).foldl stepEdge (indeg, []) := by
  show batch.foldl (fun st u => (graph u).foldl stepEdge st) (indeg, [])
    = (batch.flatMap graph).foldl stepEdge (indeg, [])
  generalize (indeg, ([] : List Agent)) = st
  induction batch generalizing st with
  | nil => rfl
  | cons u rest ih =>
    rw [List.foldl_cons, List.flatMap_cons, List.foldl_append, ih]

theorem curIndeg_nonneg (agents : List Agent) (deps : Agent → List Agent)
    (done : List Agent) (v : Agent) : 0 ≤ curIndeg agents deps done v :=
  Int.natCast_nonneg _

theorem curIndeg_eq_zero_iff {agents : List Agent} {deps : Agent → List Agent}
    {done : List Agent} {v : Agent} :
    curIndeg agents deps done v = 0 ↔ ∀ u ∈ deps v, u ∈ agents → u ∈ done := by
  rw [curIndeg]
  rw [show ((((deps v).filter fun d => decide (d ∈ agents ∧ d ∉ done)).length : ℤ) = 0)
      ↔ (((deps v).filter fun d => decide (d ∈ agents ∧ d ∉ done)).length = 0) by
    exact_mod_cast Iff.rfl]
  rw [List.length_eq_zero, List.filter_eq_nil_iff]
  constructor
  · intro h u hu hua
    by_contra hud
    exact h u hu (by simp [hua, hud])
  · intro h u hu
    simp only [decide_eq_true_eq, not_and, not_not]
    intro hua
    exact h u hu hua

/-- Under the loop invariant, the processed set is closed under in-set
dependencies. -/
theorem LoopInv.done_closed {agents : List Agent} {deps : Agent → List Agent}
    {prev : List (List Agent)} {queue : List Agent} {indeg : Agent → ℤ}
    (hInv : LoopInv agents deps prev queue indeg) :
    ∀ v ∈ prev.flatten, ∀ u ∈ deps v, u ∈ agents → u ∈ prev.flatten := by
  intro v hv u hu hua
  obtain ⟨l, hl, hvl⟩ := List.mem_flatten.1 hv
  obtain ⟨i, hil⟩ := List.mem_iff_get.1 hl
  have := hInv.order i.1 i.2 v (by rw [hil]; exact hvl) u hu hua
  obtain ⟨l', hl', hul'⟩ := List.mem_flatten.1 this
  exact List.mem_flatten.2 ⟨l', (List.take_sublist _ _).subset hl', hul'⟩

/-- Splitting the current in-degree across a newly processed batch. -/
theorem curIndeg_split (agents : List Agent) (deps : Agent → List Agent)
    {done queue : List Agent} (hqa : ∀ x ∈ queue, x ∈ agents)
    (hqd : ∀ x ∈ queue, x ∉ done) (v : Agent) :
    curIndeg agents deps done v
      = curIndeg agents deps (done ++ queue) v
        + (((deps v).filter fun d => decide (d ∈ queue)).length : ℤ) := by
  rw [curIndeg, curIndeg]
  have hsplit : ((deps v).filter fun d => decide (d ∈ agents ∧ d ∉ done))
      = (deps v).filter fun d =>
          decide (d ∈ agents ∧ d ∉ done ++ queue) || decide (d ∈ queue) := by
    apply List.filter_congr
    intro d _
    rcases hq : decide (d ∈ queue) with _ | _
    · rw [Bool.or_false]
      rw [decide_eq_decide]
      have hdq : d ∉ queue := of_decide_eq_false hq
      constructor
      · intro ⟨ha, hd⟩
        exact ⟨ha, by simp [hd, hdq]⟩
      · intro ⟨ha, hd⟩
        exact ⟨ha, fun hdd => hd (List.mem_append.2 (Or.inl hdd))⟩
    · rw [Bool.or_true]
      have hdq : d ∈ queue := of_decide_eq_true hq
      exact decide_eq_true ⟨hqa d hdq, hqd d hdq⟩
  rw [hsplit, length_filter_or_disjoint]
  · push_cast
    ring
  · intro d ⟨h1, h2⟩
    rw [decide_eq_true_eq] at h1 h2
    exact h1.2 (List.mem_append.2 (Or.inr h2))

/-- The invariant holds on entry to the `while` loop. -/
theorem LoopInv_init (agents : List Agent) (deps : Agent → List Agent)
    (hnd : agents.Nodup) :
    LoopInv agents deps [] (agents.filter fun a => decide (indeg0 agents deps a = 0))
      fun v => (indeg0 agents deps v : ℤ) := by
  have hzero : ∀ v ∈ agents, (indeg0 agents deps v = 0
      ↔ ∀ u ∈ deps v, u ∉ agents) := by
    intro v hv
    rw [indeg0, Nat.mul_eq_zero]
    constructor
    · intro h u hu hua
      rcases h with h | h
      · rw [List.count_eq_zero] at h
        exact h hv
      · rw [List.length_eq_zero, List.filter_eq_nil_iff] at h
        exact h u hu (decide_eq_true hua)
    · intro h
      right
      rw [List.length_eq_zero, List.filter_eq_nil_iff]
      intro u hu hdec
      exact h u hu (of_decide_eq_true hdec)
  refine ⟨?_, ?_, ?_, ?_, ?_⟩
  · simpa using hnd.filter _
  · intro x hx
    simp only [List.flatten_nil, List.nil_append] at hx
    exact (List.mem_filter.1 hx).1
  · intro v hv
    rw [curIndeg, indeg0, List.count_eq_one_of_mem hnd hv, one_mul]
    have heq : ((deps v).filter fun d => decide (d ∈ agents))
        = (deps v).filter fun d => decide (d ∈ agents ∧ d ∉ ([] : List (List Agent)).flatten) := by
      apply List.filter_congr
      intro d _
      rw [decide_eq_decide]
      simp
    rw [heq]
  · intro v
    simp only [List.flatten_nil]
    rw [List.mem_filter, ready]
    constructor
    · intro ⟨hv, hd⟩
      refine ⟨hv, by simp, ?_⟩
      intro u hu hua
      exact absurd hua ((hzero v hv).1 (of_decide_eq_true hd) u hu)
    · intro ⟨hv, _, hdeps⟩
      refine ⟨hv, decide_eq_true ?_⟩
      rw [hzero v hv]
      intro u hu hua
      exact (by simpa using hdeps u hu hua : False)
  · intro i hi
    simp at hi

/-- One iteration of the `while` loop preserves the invariant, emitting
the drained queue as a batch. -/
theorem LoopInv_step {agents : List Agent} {deps : Agent → List Agent}
    {prev : List (List Agent)} {queue : List Agent} {indeg : Agent → ℤ}
    (hnd : agents.Nodup) (hInv : LoopInv agents deps prev queue indeg) :
    LoopInv agents deps (prev ++ [queue])
      (processBatch (graphOf agents deps) indeg queue).2
      (processBatch (graphOf agents deps) indeg queue).1 := by
  have hflat : (prev ++ [queue]).flatten = prev.flatten ++ queue := by simp
  have hqa : ∀ x ∈ queue, x ∈ agents := fun x hx =>
    hInv.sub x (List.mem_append.2 (Or.inr hx))
  have hda : ∀ x ∈ prev.flatten, x ∈ agents := fun x hx =>
    hInv.sub x (List.mem_append.2 (Or.inl hx))
  have hqd : ∀ x ∈ queue, x ∉ prev.flatten := fun x hx hxd =>
    List.disjoint_of_nodup_append hInv.nodup hxd hx
  have hqnd : queue.Nodup :=
    hInv.nodup.sublist (List.sublist_append_right _ _)
  have hdnd : prev.flatten.Nodup :=
    hInv.nodup.sublist (List.sublist_append_left _ _)
  have hifst : ∀ v, (processBatch (graphOf agents deps) indeg queue).1 v
      = indeg v - ((queue.flatMap (graphOf agents deps)).count v : ℤ) := by
    intro v
    rw [processBatch_eq]
    exact edgeFold_fst _ _ _
  have hmemq : ∀ v, v ∈ (processBatch (graphOf agents deps) indeg queue).2
      ↔ (1 ≤ indeg v ∧ indeg v ≤ ((queue.flatMap (graphOf agents deps)).count v : ℤ)) := by
    intro v
    rw [processBatch_eq, edgeFold_mem]
    simp
  have hD : ∀ v ∈ agents, ((queue.flatMap (graphOf agents deps)).count v : ℤ)
      = (((deps v).filter fun d => decide (d ∈ queue)).length : ℤ) := by
    intro v hv
    exact_mod_cast congrArg Nat.cast (count_batch_edges hnd hqnd hqa hv)
  have hv0 : ∀ v ∈ prev.flatten, curIndeg agents deps prev.flatten v = 0 := by
    intro v hv
    exact curIndeg_eq_zero_iff.2 fun u hu hua => hInv.done_closed v hv u hu hua
  have hv1 : ∀ v ∈ queue, curIndeg agents deps prev.flatten v = 0 := by
    intro v hv
    exact curIndeg_eq_zero_iff.2 ((hInv.que v).1 hv).2.2
  have hque : ∀ v, (v ∈ (processBatch (graphOf agents deps) indeg queue).2
      ↔ ready agents deps (prev.flatten ++ queue) v) := by
    intro v
    rw [hmemq]
    by_cases hva : v ∈ agents
    · rw [hInv.ideg v hva, hD v hva]
      have hspl := curIndeg_split agents deps hqa hqd v
      have hcz := @curIndeg_eq_zero_iff agents deps (prev.flatten ++ queue) v
      have hnn := curIndeg_nonneg agents deps (prev.flatten ++ queue) v
      have hnn0 := curIndeg_nonneg agents deps prev.flatten v
      constructor
      · rintro ⟨h1, h2⟩
        have hnd' : v ∉ prev.flatten := fun hv => by
          rw [hv0 v hv] at h1
          omega
        have hnq : v ∉ queue := fun hv => by
          rw [hv1 v hv] at h1
          omega
        refine ⟨hva, fun hmem => ?_, ?_⟩
        · rcases List.mem_append.1 hmem with h | h
          · exact hnd' h
          · exact hnq h
        · apply hcz.1
          omega
      · rintro ⟨-, hnotin, hdeps⟩
        have hz : curIndeg agents deps (prev.flatten ++ queue) v = 0 := hcz.2 hdeps
        have hpos : 1 ≤ curIndeg agents deps prev.flatten v := by
          rcases lt_or_eq_of_le hnn0 with h | h
          · omega
          · exfalso
            have hready : ready agents deps prev.flatten v := by
              refine ⟨hva, fun hv => hnotin (List.mem_append.2 (Or.inl hv)), ?_⟩
              exact curIndeg_eq_zero_iff.1 h.symm
            exact hnotin (List.mem_append.2 (Or.inr ((hInv.que v).2 hready)))
        constructor
        · exact hpos
        · omega
    · have hz : ((queue.flatMap (graphOf agents deps)).count v : ℤ) = 0 := by
        rw [count_batch_edges_zero hva]
        rfl
      rw [hz]
      constructor
      · rintro ⟨h1, h2⟩
        omega
      · rintro ⟨hva2, -, -⟩
        exact absurd hva2 hva
  refine ⟨?_, ?_, ?_, ?_, ?_⟩
  · rw [hflat]
    rw [List.nodup_append]
    have hqnd2 : (processBatch (graphOf agents deps) indeg queue).2.Nodup := by
      rw [processBatch_eq]
      exact (edgeFold_nodup _ (indeg, []) (by simp) (by simp)).1
    refine ⟨hInv.nodup, hqnd2, ?_⟩
    intro x hx hx2
    exact ((hque x).1 hx2).2.1 hx
  · intro x hx
    rw [hflat] at hx
    rcases List.mem_append.1 hx with h | h
    · exact hInv.sub x h
    · exact ((hque x).1 h).1
  · intro v hv
    rw [hflat, hifst v, hInv.ideg v hv, hD v hv, curIndeg_split agents deps hqa hqd v]
    ring
  · intro v
    rw [hflat]
    exact hque v
  · intro i hi v hv u hu hua
    rcases Nat.lt_or_ge i prev.length with hlt | hge
    · have hget : (prev ++ [queue]).get ⟨i, hi⟩ = prev.get ⟨i, hlt⟩ := by
        simp only [List.get_eq_getElem]
        exact List.getElem_append_left hlt
      rw [hget] at hv
      have := hInv.order i hlt v hv u hu hua
      rw [List.take_append_of_le_length (Nat.le_of_lt hlt)]
      exact this
    · have hieq : i = prev.length := by
        have := hi
        simp only [List.length_append, List.length_singleton] at this
        omega
      have hget : (prev ++ [queue]).get ⟨i, hi⟩ = queue := by
        have := List.getElem_concat_length prev queue i hieq (by simpa using hi)
        simpa using this
      rw [hget] at hv
      have hready := (hInv.que v).1 hv
      have := hready.2.2 u hu hua
      rw [hieq, List.take_left]
      exact this

/-- What the `while` loop guarantees on exit, given the invariant and
enough fuel: all emitted ids are distinct members of the agent set, each
batch's in-set dependencies lie in strictly earlier batches, and every
id left unemitted has an unemitted in-set dependency. -/
theorem kahnLoop_good {agents : List Agent} {deps : Agent → List Agent}
    (hnd : agents.Nodup) :
    ∀ (fuel : ℕ) (prev : List (List Agent)) (queue : List Agent) (indeg : Agent → ℤ),
    LoopInv agents deps prev queue indeg →
    agents.length + 1 ≤ fuel + prev.flatten.length →
    (prev.flatten
        ++ (kahnLoop (graphOf agents deps) fuel indeg queue).flatten).Nodup ∧
    (∀ x ∈ (kahnLoop (graphOf agents deps) fuel indeg queue).flatten, x ∈ agents) ∧
    (∀ i (hi : i < (prev ++ kahnLoop (graphOf agents deps) fuel indeg queue).length),
      ∀ v ∈ (prev ++ kahnLoop (graphOf agents deps) fuel indeg queue).get ⟨i, hi⟩,
        ∀ u ∈ deps v, u ∈ agents →
          u ∈ ((prev ++ kahnLoop (graphOf agents deps) fuel indeg queue).take i).flatten) ∧
    (∀ v ∈ agents,
      v ∉ prev.flatten ++ (kahnLoop (graphOf agents deps) fuel indeg queue).flatten →
      ∃ u ∈ deps v, u ∈ agents ∧
        u ∉ prev.flatten
          ++ (kahnLoop (graphOf agents deps) fuel indeg queue).flatten) := by
  intro fuel
  induction fuel with
  | zero =>
    intro prev queue indeg hInv hfuel
    exfalso
    have hdnd : prev.flatten.Nodup :=
      hInv.nodup.sublist (List.sublist_append_left _ _)
    have hdsub : prev.flatten ⊆ agents := fun x hx =>
      hInv.sub x (List.mem_append.2 (Or.inl hx))
    have := (List.subperm_of_subset hdnd hdsub).length_le
    omega
  | succ fuel ih =>
    intro prev queue indeg hInv hfuel
    by_cases hq : queue = []
    · subst hq
      have hk : kahnLoop (graphOf agents deps) (fuel + 1) indeg [] = [] := by
        rw [kahnLoop]
        rfl
      rw [hk]
      have hnodup : (prev.flatten ++ ([] : List (List Agent)).flatten).Nodup := by
        simpa using hInv.nodup
      refine ⟨hnodup, by simp, ?_, ?_⟩
      · intro i hi v hv u hu hua
        have hig : i < prev.length := by simpa using hi
        have hgv : (prev ++ ([] : List (List Agent))).get ⟨i, hi⟩
            = prev.get ⟨i, hig⟩ := by
          simp only [List.get_eq_getElem]
          exact List.getElem_append_left hig
        rw [hgv] at hv
        have := hInv.order i hig v hv u hu hua
        rw [List.append_nil]
        exact this
      · intro v hva hvn
        simp only [List.flatten_nil, List.append_nil] at hvn
        have hnready : ¬ready agents deps prev.flatten v := fun hr =>
          (by simpa using (hInv.que v).2 hr : False)
        rw [ready] at hnready
        push_neg at hnready
        obtain ⟨u, hu, hua2, hud⟩ := hnready hva hvn
        exact ⟨u, hu, hua2, by simpa using hud⟩
    · have hqe : queue.isEmpty = false := by
        cases queue with
        | nil => exact absurd rfl hq
        | cons a qs => rfl
      have hk : kahnLoop (graphOf agents deps) (fuel + 1) indeg queue
          = queue :: kahnLoop (graphOf agents deps) fuel
              (processBatch (graphOf agents deps) indeg queue).1
              (processBatch (graphOf agents deps) indeg queue).2 := by
        rw [kahnLoop, hqe]
        rfl
      rw [hk]
      have hInv2 := LoopInv_step hnd hInv
      have hql : 1 ≤ queue.length := by
        cases queue with
        | nil => exact absurd rfl hq
        | cons a qs => simp
      have hfuel2 : agents.length + 1 ≤ fuel + (prev ++ [queue]).flatten.length := by
        have : (prev ++ [queue]).flatten.length = prev.flatten.length + queue.length := by
          simp
        omega
      obtain ⟨g1, g2, g3, g4⟩ := ih (prev ++ [queue])
        (processBatch (graphOf agents deps) indeg queue).2
        (processBatch (graphOf agents deps) indeg queue).1 hInv2 hfuel2
      have hfl : ∀ bs : List (List Agent),
          prev.flatten ++ (queue :: bs).flatten
            = (prev ++ [queue]).flatten ++ bs.flatten := by
        intro bs
        simp [List.append_assoc]
      have hll : ∀ bs : List (List Agent),
          prev ++ queue :: bs = (prev ++ [queue]) ++ bs := by
        intro bs
        simp
      refine ⟨?_, ?_, ?_, ?_⟩
      · rw [hfl]
        exact g1
      · intro x hx
        simp only [List.flatten_cons] at hx
        rcases List.mem_append.1 hx with h | h
        · exact hInv.sub x (List.mem_append.2 (Or.inr h))
        · exact g2 x h
      · rw [hll]
        exact g3
      · intro v hva hvn
        rw [hfl] at hvn
        obtain ⟨u, hu, hua2, hun⟩ := g4 v hva hvn
        rw [hfl]
        exact ⟨u, hu, hua2, hun⟩

theorem mem_take_flatten {bs : List (List Agent)} {j : ℕ} {u : Agent}
    (h : u ∈ (bs.take j).flatten) :
    ∃ i, ∃ hi : i < bs.length, i < j ∧ u ∈ bs.get ⟨i, hi⟩ := by
  induction bs generalizing j with
  | nil => simp at h
  | cons b rest ih =>
    cases j with
    | zero => simp at h
    | succ jj =>
      rw [List.take_succ_cons, List.flatten_cons] at h
      rcases List.mem_append.1 h with h | h
      · exact ⟨0, by simp, Nat.succ_pos _, h⟩
      · obtain ⟨i, hi, hij, hmem⟩ := ih h
        exact ⟨i + 1, by simpa using Nat.succ_lt_succ hi, Nat.succ_lt_succ hij, hmem⟩

theorem mem_flatten_get {bs : List (List Agent)} {v : Agent} (h : v ∈ bs.flatten) :
    ∃ j, ∃ hj : j < bs.length, v ∈ bs.get ⟨j, hj⟩ := by
  obtain ⟨l, hl, hvl⟩ := List.mem_flatten.1 h
  obtain ⟨n, hn⟩ := List.mem_iff_get.1 hl
  exact ⟨n.1, n.2, by rw [hn]; exact hvl⟩

theorem batch_disjoint {bs : List (List Agent)} (hnd : bs.flatten.Nodup)
    {i j : ℕ} (hi : i < bs.length) (hj : j < bs.length) (hne : i ≠ j) {x : Agent}
    (hxi : x ∈ bs.get ⟨i, hi⟩) (hxj : x ∈ bs.get ⟨j, hj⟩) : False := by
  have hpair : bs.Pairwise List.Disjoint := (List.nodup_flatten.1 hnd).2
  have hget := List.pairwise_iff_get.1 hpair
  rcases Nat.lt_or_ge i j with hlt | hge
  · exact hget ⟨i, hi⟩ ⟨j, hj⟩ hlt hxi hxj
  · have hlt : j < i := lt_of_le_of_ne hge (Ne.symm hne)
    exact hget ⟨j, hj⟩ ⟨i, hi⟩ hlt hxj hxi

/-- Non-empty walk of any length inside a predecessor-closed set, with
all pairs connected by paths. -/
theorem exists_walk (E : Agent → Agent → Prop) (S : List Agent) (hne : S ≠ [])
    (h : ∀ v ∈ S, ∃ u ∈ S, E u v) :
    ∀ n : ℕ, ∃ w : List Agent, w ≠ [] ∧ w.length = n + 1 ∧ (∀ x ∈ w, x ∈ S) ∧
      w.Pairwise (EPath E) := by
  intro n
  induction n with
  | zero =>
    obtain ⟨v, hv⟩ := List.exists_mem_of_ne_nil S hne
    exact ⟨[v], by simp, rfl, by simpa using hv, by simp⟩
  | succ n ih =>
    obtain ⟨w, hwne, hlen, hsub, hpw⟩ := ih
    cases w with
    | nil => exact absurd rfl hwne
    | cons v rest =>
      obtain ⟨u, huS, hE⟩ := h v (hsub v (List.mem_cons_self _ _))
      refine ⟨u :: v :: rest, by simp, by simpa using hlen, ?_, ?_⟩
      · intro x hx
        rcases List.mem_cons.1 hx with hx | hx
        · exact hx ▸ huS
        · exact hsub x hx
      · refine List.pairwise_cons.2 ⟨?_, hpw⟩
        intro x hx
        rcases List.mem_cons.1 hx with hx | hx
        · exact hx ▸ EPath.single hE
        · exact EPath.cons hE ((List.pairwise_cons.1 hpw).1 x hx)

/-- A finite set in which every element has a predecessor contains a
cycle. -/
theorem cycle_of_closed (E : Agent → Agent → Prop) (S : List Agent)
    (hne : S ≠ []) (h : ∀ v ∈ S, ∃ u ∈ S, E u v) :
    ∃ v, EPath E v v := by
  obtain ⟨w, -, hlen, hsub, hpw⟩ := exists_walk E S hne h S.length
  have hnnd : ¬w.Nodup := by
    intro hwnd
    have := (List.subperm_of_subset hwnd fun x hx => hsub x hx).length_le
    omega
  obtain ⟨x, hdup⟩ := List.exists_duplicate_iff_not_nodup.2 hnnd
  have hsl : [x, x].Sublist w := List.duplicate_iff_sublist.1 hdup
  have hp2 : ([x, x] : List Agent).Pairwise (EPath E) := List.Pairwise.sublist hsl hpw
  exact ⟨x, (List.pairwise_cons.1 hp2).1 x (List.mem_singleton.2 rfl)⟩

/-- The source of any path over the restricted edge relation is in the
agent set. -/
theorem EPath_src_mem {agents : List Agent} {deps : Agent → List Agent} {u v : Agent}
    (h : EPath (EdgeIn agents deps) u v) : u ∈ agents := by
  cases h with
  | single he => exact he.1
  | cons he _ => exact he.1

/-- Properties of the batch list built inside `resolve`, for
duplicate-free input: the flattened output is duplicate-free, stays
inside the agent set, every emitted id's in-set dependencies lie in
strictly earlier batches, and every agent NOT emitted has an in-set
dependency that was not emitted either. -/
theorem kahnBatches_good (agents : List Agent) (deps : Agent → List Agent)
    (hnd : agents.Nodup) :
    (kahnBatches agents deps).flatten.Nodup ∧
    (∀ x ∈ (kahnBatches agents deps).flatten, x ∈ agents) ∧
    (∀ i (hi : i < (kahnBatches agents deps).length),
      ∀ v ∈ (kahnBatches agents deps).get ⟨i, hi⟩, ∀ u ∈ deps v, u ∈ agents →
        u ∈ ((kahnBatches agents deps).take i).flatten) ∧
    (∀ v ∈ agents, v ∉ (kahnBatches agents deps).flatten →
      ∃ u ∈ deps v, u ∈ agents ∧ u ∉ (kahnBatches agents deps).flatten) := by
  have hfuel : agents.length + 1
      ≤ 2 * agents.length + 1 + ([] : List (List Agent)).flatten.length := by
    simp only [List.flatten_nil, List.length_nil]
    omega
  have h := kahnLoop_good hnd (2 * agents.length + 1) []
    (agents.filter fun a => decide (indeg0 agents deps a = 0))
    (fun v => (indeg0 agents deps v : ℤ)) (LoopInv_init agents deps hnd) hfuel
  exact ⟨h.1, h.2.1, h.2.2.1, h.2.2.2⟩

/-- In a batch list where dependencies sit in strictly earlier batches
and no id repeats, an in-set edge strictly increases the batch index. -/
theorem edge_batch_lt {agents : List Agent} {deps : Agent → List Agent}
    {bs : List (List Agent)} (hfnd : bs.flatten.Nodup)
    (hord : ∀ i (hi : i < bs.length), ∀ v ∈ bs.get ⟨i, hi⟩, ∀ u ∈ deps v, u ∈ agents →
      u ∈ (bs.take i).flatten)
    {u v : Agent} {i j : ℕ} (hi : i < bs.length) (hj0 : j < bs.length)
    (hui : u ∈ bs.get ⟨i, hi⟩) (hvj : v ∈ bs.get ⟨j, hj0⟩)
    (hdep : u ∈ deps v) (hua : u ∈ agents) : i < j := by
  have hmem := hord j hj0 v hvj u hdep hua
  obtain ⟨i2, hi2, hij, hmem2⟩ := mem_take_flatten hmem
  have hii : i = i2 := by
    by_contra hne
    exact batch_disjoint hfnd hi hi2 hne hui hmem2
  omega

/-- A path over the in-set edges strictly increases the batch index,
provided every agent is emitted in some batch. -/
theorem path_batch_lt {agents : List Agent} {deps : Agent → List Agent}
    {bs : List (List Agent)} (hfnd : bs.flatten.Nodup)
    (hcov : ∀ v ∈ agents, v ∈ bs.flatten)
    (hord : ∀ i (hi : i < bs.length), ∀ v ∈ bs.get ⟨i, hi⟩, ∀ u ∈ deps v, u ∈ agents →
      u ∈ (bs.take i).flatten)
    {u v : Agent} (hp : EPath (EdgeIn agents deps) u v) :
    ∀ {i j : ℕ} (hi : i < bs.length) (hj : j < bs.length),
      u ∈ bs.get ⟨i, hi⟩ → v ∈ bs.get ⟨j, hj⟩ → i < j := by
  induction hp with
  | single he =>
    intro i j hi hj hui hvj
    exact edge_batch_lt hfnd hord hi hj hui hvj he.2.2 he.1
  | cons he hp ih =>
    intro i j hi hj hui hvj
    obtain ⟨k, hk, hwk⟩ := mem_flatten_get (hcov _ he.2.1)
    exact lt_trans (edge_batch_lt hfnd hord hi hk hui hwk he.2.2 he.1) (ih hk hj hwk hvj)

/-- If the Kahn batches cover every agent, the restricted dependency
relation is acyclic. -/
theorem no_cycle_of_covers {agents : List Agent} {deps : Agent → List Agent}
    (hnd : agents.Nodup)
    (hcov : ∀ v ∈ agents, v ∈ (kahnBatches agents deps).flatten) :
    ¬hasCycle agents deps := by
  rintro ⟨v, hp⟩
  obtain ⟨hfnd, -, hord, -⟩ := kahnBatches_good agents deps hnd
  obtain ⟨j, hj, hvj⟩ := mem_flatten_get (hcov v (EPath_src_mem hp))
  exact absurd (path_batch_lt hfnd hcov hord hp hj hj hvj hvj) (lt_irrefl j)

/-- If the restricted dependency relation is acyclic, the Kahn batches
cover every agent: otherwise the left-over ids form a non-empty
predecessor-closed set, which contains a cycle. -/
theorem covers_of_acyclic {agents : List Agent} {deps : Agent → List Agent}
    (hnd : agents.Nodup) (hnc : ¬hasCycle agents deps) :
    ∀ v ∈ agents, v ∈ (kahnBatches agents deps).flatten := by
  by_contra hcon
  push_neg at hcon
  obtain ⟨v0, hv0a, hv0n⟩ := hcon
  obtain ⟨-, -, -, hstuck⟩ := kahnBatches_good agents deps hnd
  have hS : ∀ v ∈ agents.filter
      (fun a => decide (a ∉ (kahnBatches agents deps).flatten)),
      ∃ u ∈ agents.filter
        (fun a => decide (a ∉ (kahnBatches agents deps).flatten)),
        EdgeIn agents deps u v := by
    intro v hv
    obtain ⟨hva, hvn⟩ := List.mem_filter.1 hv
    obtain ⟨u, hu, hua, hun⟩ := hstuck v hva (of_decide_eq_true hvn)
    exact ⟨u, List.mem_filter.2 ⟨hua, decide_eq_true hun⟩, hua, hva, hu⟩
  have hSne : agents.filter
      (fun a => decide (a ∉ (kahnBatches agents deps).flatten)) ≠ [] := by
    intro hnil
    have : v0 ∈ agents.filter
        (fun a => decide (a ∉ (kahnBatches agents deps).flatten)) :=
      List.mem_filter.2 ⟨hv0a, decide_eq_true hv0n⟩
    rw [hnil] at this
    simp at this
  exact hnc (cycle_of_closed (EdgeIn agents deps) _ hSne hS)

/-- When the batches cover the agents, `resolve` passes its length
check and returns them. -/
theorem resolve_ok_of_covers {agents : List Agent} {deps : Agent → List Agent}
    (hnd : agents.Nodup)
    (hcov : ∀ v ∈ agents, v ∈ (kahnBatches agents deps).flatten) :
    resolve agents deps = .ok (kahnBatches agents deps) ∧
      List.Perm (kahnBatches agents deps).flatten agents := by
  obtain ⟨hfnd, hsub, -, -⟩ := kahnBatches_good agents deps hnd
  have hperm : List.Perm (kahnBatches agents deps).flatten agents :=
    (List.subperm_of_subset hfnd hsub).antisymm (List.subperm_of_subset hnd hcov)
  have hsum : ((kahnBatches agents deps).map List.length).sum = agents.length := by
    rw [← List.length_flatten]
    exact hperm.length_eq
  exact ⟨by rw [resolve, if_pos hsum], hperm⟩

/-- Conversely, if `resolve`'s length check passes then the batches
cover every agent. -/
theorem covers_of_sum {agents : List Agent} {deps : Agent → List Agent}
    (hnd : agents.Nodup)
    (hsum : ((kahnBatches agents deps).map List.length).sum = agents.length) :
    ∀ v ∈ agents, v ∈ (kahnBatches agents deps).flatten := by
  obtain ⟨hfnd, hsub, -, -⟩ := kahnBatches_good agents deps hnd
  have hlen : agents.length ≤ (kahnBatches agents deps).flatten.length := by
    rw [List.length_flatten, hsum]
  have hperm := (List.subperm_of_subset hfnd hsub).perm_of_length_le hlen
  intro v hv
  exact hperm.mem_iff.2 hv

/-- An order-respecting rank function certifies acyclicity. -/
theorem no_cycle_of_rank {agents : List Agent} {deps : Agent → List Agent}
    (r : Agent → ℕ) (h : ∀ u v, EdgeIn agents deps u v → r u < r v) :
    ¬hasCycle agents deps := by
  have hp : ∀ u v, EPath (EdgeIn agents deps) u v → r u < r v := by
    intro u v hp
    induction hp with
    | single he => exact h _ _ he
    | cons he _ ih => exact lt_trans (h _ _ he) ih
  rintro ⟨v, hpv⟩
  exact absurd (hp v v hpv) (lt_irrefl _)

/-- `wDeps` on `wAgents` is acyclic: its only in-set edge is `a → b`. -/
theorem wDeps_acyclic : ¬hasCycle wAgents wDeps := by
  apply no_cycle_of_rank fun v => if v = "b" then 1 else 0
  rintro u v ⟨hu, hv, hd⟩
  rcases List.mem_cons.1 hv with hv | hv
  · subst hv
    simp [wDeps] at hd
  · rcases List.mem_cons.1 hv with hv | hv
    · subst hv
      simp [wDeps] at hd
      subst hd
      decide
    · simp at hv

/-- `dupDeps` on `dupAgents` is acyclic: its only in-set edge is
`a → b`. -/
theorem dupDeps_acyclic : ¬hasCycle dupAgents dupDeps := by
  apply no_cycle_of_rank fun v => if v = "b" then 1 else 0
  rintro u v ⟨hu, hv, hd⟩
  rcases List.mem_cons.1 hv with hv | hv
  · subst hv
    simp [dupDeps] at hd
  · rcases List.mem_cons.1 hv with hv | hv
    · subst hv
      simp [dupDeps] at hd
      subst hd
      decide
    · rcases List.mem_cons.1 hv with hv | hv
      · subst hv
        simp [dupDeps] at hd
        subst hd
        decide
      · simp at hv

/-- `ordDeps` on `ordAgents` is acyclic: its in-set edges are `y → p`
and `x → q`. -/
theorem ordDeps_acyclic : ¬hasCycle ordAgents ordDeps := by
  apply no_cycle_of_rank fun v => if v = "p" ∨ v = "q" then 1 else 0
  rintro u v ⟨hu, hv, hd⟩
  rcases List.mem_cons.1 hv with hv | hv
  · subst hv
    simp [ordDeps] at hd
  · rcases List.mem_cons.1 hv with hv | hv
    · subst hv
      simp [ordDeps] at hd
    · rcases List.mem_cons.1 hv with hv | hv
      · subst hv
        simp [ordDeps] at hd
        subst hd
        decide
      · rcases List.mem_cons.1 hv with hv | hv
        · subst hv
          simp [ordDeps] at hd
          subst hd
          decide
        · simp at hv

/-- The first batch is the filter of the input list by zero in-degree,
hence a sublist of the input (input order preserved). -/
theorem kahnBatches_head_sublist (agents : List Agent) (deps : Agent → List Agent) :
    ∀ b ∈ (kahnBatches agents deps).head?, b.Sublist agents := by
  intro b hb
  by_cases hq : (agents.filter fun a => decide (indeg0 agents deps a = 0)) = []
  · have hk : kahnBatches agents deps = [] := by
      rw [kahnBatches, hq, kahnLoop]
      rfl
    rw [hk] at hb
    simp at hb
  · have hqe : (agents.filter fun a => decide (indeg0 agents deps a = 0)).isEmpty
        = false := by
      cases hfe : agents.filter fun a => decide (indeg0 agents deps a = 0) with
      | nil => exact absurd hfe hq
      | cons a qs => rfl
    have hk : (kahnBatches agents deps).head?
        = some (agents.filter fun a => decide (indeg0 agents deps a = 0)) := by
      rw [kahnBatches, kahnLoop, hqe]
      rfl
    rw [hk] at hb
    simp only [Option.mem_some_iff] at hb
    subst hb
    exact List.filter_sublist _

/-- **C2** (amended: the input list must be duplicate-free). For every
duplicate-free agent list `A` and dependency map `deps`,
`DependencyResolver.resolve(A, deps)` raises
`ValueError("Circular dependency detected in agents")` if and only if
the dependency relation restricted to `A` contains a directed cycle;
in particular dependencies pointing outside `A` never cause it.  With a
duplicated id the error also fires on acyclic input
(`resolve_error_dup_counterexample`). -/
theorem resolve_error_iff_cycle (agents : List Agent) (deps : Agent → List Agent)
    (hnd : agents.Nodup) :
    resolve agents deps = .error "Circular dependency detected in agents"
      ↔ hasCycle agents deps := by
  constructor
  · intro herr
    by_contra hnc
    have hok := (resolve_ok_of_covers hnd (covers_of_acyclic hnd hnc)).1
    rw [herr] at hok
    exact Except.noConfusion hok
  · intro hcyc
    rw [resolve, if_neg]
    intro hsum
    exact no_cycle_of_covers hnd (covers_of_sum hnd hsum) hcyc

/-- Witness for C2 at the spec's scenario `A = [a, b, c]`,
`deps = {a: [b], b: [c], c: [a]}`: the input is duplicate-free, the
relation has the cycle `a → c → b → a` (where `u → v` means `v` depends
on `u`), and `resolve` raises the cycle error. -/
theorem resolve_error_iff_cycle_witness :
    (["a", "b", "c"] : List Agent).Nodup ∧
    resolve ["a", "b", "c"] cycDeps
      = .error "Circular dependency detected in agents" := by
  refine ⟨by decide, ?_⟩
  refine (resolve_error_iff_cycle ["a", "b", "c"] cycDeps (by decide)).2 ⟨"a", ?_⟩
  have e1 : EdgeIn ["a", "b", "c"] cycDeps "a" "c" := ⟨by decide, by decide, by decide⟩
  have e2 : EdgeIn ["a", "b", "c"] cycDeps "c" "b" := ⟨by decide, by decide, by decide⟩
  have e3 : EdgeIn ["a", "b", "c"] cycDeps "b" "a" := ⟨by decide, by decide, by decide⟩
  exact EPath.cons e1 (EPath.cons e2 (EPath.single e3))

/-- Counterexample to C2 as stated (over every list `A`): with the
duplicated input `A = [a, b, b]` and acyclic `deps = {b: [a]}`, the
batches are `[[a], [b]]` — the duplicated id `b` is emitted in exactly
one batch — so the batch sizes sum to 2 ≠ len(A) = 3 and `resolve`
raises the cycle error although no cycle exists. -/
theorem resolve_error_dup_counterexample :
    resolve dupAgents dupDeps = .error "Circular dependency detected in agents" ∧
    ¬hasCycle dupAgents dupDeps :=
  ⟨by rfl, dupDeps_acyclic⟩

/-- **C1** (amended: only the FIRST batch is guaranteed to preserve the
input order).  For every duplicate-free agent list `A` and dependency
map acyclic on `A`, `resolve` returns batches whose concatenation is a
permutation of `A` (every id in exactly one batch); for every edge
`u ∈ deps[v]` with `u, v ∈ A`, the batch of `u` strictly precedes the
batch of `v` (so no two ids in one batch are connected by an edge); and
the first batch lists its ids in input order.  Later batches list ids
in counter-exhaustion order, which can differ from input order
(`resolve_batch_order_counterexample`). -/
theorem resolve_acyclic_spec (agents : List Agent) (deps : Agent → List Agent)
    (hnd : agents.Nodup) (hnc : ¬hasCycle agents deps) :
    ∃ batches, resolve agents deps = .ok batches ∧
      List.Perm batches.flatten agents ∧
      (∀ (u v : Agent) (i j : ℕ) (hi : i < batches.length) (hj : j < batches.length),
        u ∈ batches.get ⟨i, hi⟩ → v ∈ batches.get ⟨j, hj⟩ →
          u ∈ deps v → u ∈ agents → i < j) ∧
      ∀ b ∈ batches.head?, b.Sublist agents := by
  obtain ⟨hok, hperm⟩ := resolve_ok_of_covers hnd (covers_of_acyclic hnd hnc)
  obtain ⟨hfnd, -, hord, -⟩ := kahnBatches_good agents deps hnd
  refine ⟨kahnBatches agents deps, hok, hperm, ?_,
    kahnBatches_head_sublist agents deps⟩
  intro u v i j hi hj hui hvj hdep hua
  exact edge_batch_lt hfnd hord hi hj hui hvj hdep hua

/-- Witness for C1 at `A = [a, b]`, `deps = {b: [a]}` (duplicate-free,
acyclic): `resolve` succeeds with all three guarantees. -/
theorem resolve_acyclic_spec_witness :
    wAgents.Nodup ∧ ¬hasCycle wAgents wDeps ∧
    (∃ batches, resolve wAgents wDeps = .ok batches ∧
      List.Perm batches.flatten wAgents ∧
      (∀ (u v : Agent) (i j : ℕ) (hi : i < batches.length) (hj : j < batches.length),
        u ∈ batches.get ⟨i, hi⟩ → v ∈ batches.get ⟨j, hj⟩ →
          u ∈ wDeps v → u ∈ wAgents → i < j) ∧
      ∀ b ∈ batches.head?, b.Sublist wAgents) :=
  ⟨by decide, wDeps_acyclic,
    resolve_acyclic_spec wAgents wDeps (by decide) wDeps_acyclic⟩

/-- Counterexample to C1's within-batch input-order clause: for
`A = [x, y, p, q]` with `deps = {p: [y], q: [x]}` (duplicate-free,
acyclic) the second batch is `[q, p]`, although `p` precedes `q` in
`A` — the batch order is the order the counters reach zero (`x` is
processed before `y`, freeing `q` before `p`). -/
theorem resolve_batch_order_counterexample :
    ordAgents.Nodup ∧ ¬hasCycle ordAgents ordDeps ∧
    resolve ordAgents ordDeps = .ok [["x", "y"], ["q", "p"]] ∧
    ¬List.Sublist ["q", "p"] ordAgents :=
  ⟨by decide, ordDeps_acyclic, by rfl, by decide⟩

end DependencyResolver

end Bootstrap
